import Mathlib

/-!
Shallow embedding of the HCI medication-system server (src/main.py) and proofs
about its interaction engine, registry, broadcast hub, gesture controller and
stroke classifier.
-/

open Real

/-! ## Sector computation (src/main.py lines 146-153 and 185-189) -/

/-- Python float modulo `a % b` for a positive real divisor `b`: the
representative of `a` modulo `b` lying in `[0, b)`, i.e. `a - b*floor(a/b)`.
This embeds `record["angle"] % (2 * math.pi)` from lines 148 and 187. -/
noncomputable def pyMod (a b : ℝ) : ℝ := a - b * ⌊a / b⌋

/-- Python `int()` conversion applied to a real value: truncation toward zero
(`int(2.7) = 2`, `int(-2.7) = -2`). -/
noncomputable def intTrunc (x : ℝ) : ℤ := if 0 ≤ x then ⌊x⌋ else -⌊-x⌋

/-- Number of wheel sectors, `NUM_WHEEL_SECTORS = len(MEDICATION_SYMBOLS) = 6`
(line 39). -/
def NUM_WHEEL_SECTORS : ℤ := 6

/-- Wheel sector from a rotation angle, embedding lines 148-150 (and the
identical lines 187-189 of the nurse branch):
`theta = angle % (2*pi); frac = theta / (2*pi); sector = int(frac * 6) % 6`. -/
noncomputable def sectorOf (angle : ℝ) : ℤ :=
  let theta := pyMod angle (2 * π)
  let frac := theta / (2 * π)
  intTrunc (frac * NUM_WHEEL_SECTORS) % NUM_WHEEL_SECTORS

/-- Sector computation as the specification words it: take the true floor of
`((θ mod 2π) / 2π) · N` and reduce mod `N`, with `N = 6`.  Modelled from the
spec sentence for comparison against `sectorOf`. -/
noncomputable def sectorSpec (angle : ℝ) : ℤ :=
  ⌊pyMod angle (2 * π) / (2 * π) * NUM_WHEEL_SECTORS⌋ % NUM_WHEEL_SECTORS

lemma pyMod_eq_fract (a b : ℝ) (hb : b ≠ 0) : pyMod a b = b * Int.fract (a / b) := by
  unfold pyMod Int.fract
  field_simp

lemma pyMod_div (a b : ℝ) (hb : b ≠ 0) : pyMod a b / b = Int.fract (a / b) := by
  rw [pyMod_eq_fract a b hb, mul_div_cancel_left₀ _ hb]

lemma two_pi_ne_zero : (2 * π : ℝ) ≠ 0 := ne_of_gt Real.two_pi_pos

lemma sectorOf_eq_floor (θ : ℝ) : sectorOf θ = ⌊Int.fract (θ / (2 * π)) * 6⌋ := by
  have hfr : pyMod θ (2 * π) / (2 * π) = Int.fract (θ / (2 * π)) :=
    pyMod_div θ (2 * π) two_pi_ne_zero
  have h0 : (0:ℝ) ≤ Int.fract (θ / (2 * π)) * 6 := by
    have := Int.fract_nonneg (θ / (2 * π))
    linarith
  have h6 : Int.fract (θ / (2 * π)) * 6 < 6 := by
    have := Int.fract_lt_one (θ / (2 * π))
    linarith
  have hflo : (0:ℤ) ≤ ⌊Int.fract (θ / (2 * π)) * 6⌋ := Int.floor_nonneg.2 h0
  have hfll : ⌊Int.fract (θ / (2 * π)) * 6⌋ < 6 :=
    Int.floor_lt.2 (by exact_mod_cast h6)
  have hdef : sectorOf θ = intTrunc (pyMod θ (2 * π) / (2 * π) * ((6:ℤ):ℝ)) % 6 := rfl
  rw [hdef, hfr]
  push_cast
  unfold intTrunc
  rw [if_pos h0]
  exact Int.emod_eq_of_lt hflo hfll

lemma sectorSpec_eq_floor (θ : ℝ) : sectorSpec θ = ⌊Int.fract (θ / (2 * π)) * 6⌋ := by
  have hfr : pyMod θ (2 * π) / (2 * π) = Int.fract (θ / (2 * π)) :=
    pyMod_div θ (2 * π) two_pi_ne_zero
  have h0 : (0:ℝ) ≤ Int.fract (θ / (2 * π)) * 6 := by
    have := Int.fract_nonneg (θ / (2 * π))
    linarith
  have h6 : Int.fract (θ / (2 * π)) * 6 < 6 := by
    have := Int.fract_lt_one (θ / (2 * π))
    linarith
  have hflo : (0:ℤ) ≤ ⌊Int.fract (θ / (2 * π)) * 6⌋ := Int.floor_nonneg.2 h0
  have hfll : ⌊Int.fract (θ / (2 * π)) * 6⌋ < 6 :=
    Int.floor_lt.2 (by exact_mod_cast h6)
  unfold sectorSpec NUM_WHEEL_SECTORS
  rw [hfr]
  push_cast
  exact Int.emod_eq_of_lt hflo hfll

lemma sectorOf_nonneg (θ : ℝ) : 0 ≤ sectorOf θ := by
  rw [sectorOf_eq_floor]
  exact Int.floor_nonneg.2 (mul_nonneg (Int.fract_nonneg _) (by norm_num))

lemma sectorOf_lt_six (θ : ℝ) : sectorOf θ < 6 := by
  rw [sectorOf_eq_floor]
  have h6 : Int.fract (θ / (2 * π)) * 6 < 6 := by
    have := Int.fract_lt_one (θ / (2 * π))
    linarith
  exact Int.floor_lt.2 (by exact_mod_cast h6)

lemma fract_of_mem_Ico {θ : ℝ} (h0 : 0 ≤ θ) (h2 : θ < 2 * π) :
    Int.fract (θ / (2 * π)) = θ / (2 * π) := by
  refine Int.fract_eq_self.2 ⟨by positivity, ?_⟩
  rw [div_lt_one Real.two_pi_pos]
  exact h2

/-- C1. For every incoming angle the wheel sector computed by the interaction
engine (`sectorOf`, truncating `int()` plus `%` as in the code) equals the
spec's formula `floor(((θ mod 2π)/2π)·N) mod N` with `N = 6`; it always lies in
`[0, 6)`; `sectorOf 0 = 0`; it is non-decreasing as the angle increases within
one revolution `[0, 2π)`; on the last sixth of the revolution it equals `N-1 = 5`
and at `θ = 2π` it wraps back to `0`. -/
theorem C1_sector_formula :
    (∀ θ : ℝ, sectorOf θ = sectorSpec θ) ∧
    (∀ θ : ℝ, 0 ≤ sectorOf θ ∧ sectorOf θ < NUM_WHEEL_SECTORS) ∧
    sectorOf 0 = 0 ∧
    (∀ θ₁ θ₂ : ℝ, 0 ≤ θ₁ → θ₁ ≤ θ₂ → θ₂ < 2 * π → sectorOf θ₁ ≤ sectorOf θ₂) ∧
    (∀ θ : ℝ, 5 * (2 * π) / 6 ≤ θ → θ < 2 * π → sectorOf θ = 5) ∧
    sectorOf (2 * π) = 0 := by
  refine ⟨?_, ?_, ?_, ?_, ?_, ?_⟩
  · intro θ
    rw [sectorOf_eq_floor, sectorSpec_eq_floor]
  · intro θ
    exact ⟨sectorOf_nonneg θ, sectorOf_lt_six θ⟩
  · rw [sectorOf_eq_floor]
    norm_num
  · intro θ₁ θ₂ h0 h12 h2
    rw [sectorOf_eq_floor, sectorOf_eq_floor]
    apply Int.floor_le_floor
    rw [fract_of_mem_Ico h0 (lt_of_le_of_lt h12 h2),
      fract_of_mem_Ico (le_trans h0 h12) h2]
    have : θ₁ / (2 * π) ≤ θ₂ / (2 * π) :=
      (div_le_div_right Real.two_pi_pos).2 h12
    linarith
  · intro θ h5 h2
    rw [sectorOf_eq_floor]
    have h0 : (0:ℝ) ≤ θ := le_trans (by positivity) h5
    rw [fract_of_mem_Ico h0 h2]
    have hlo : (5:ℝ) ≤ θ / (2 * π) * 6 := by
      rw [div_mul_eq_mul_div, le_div_iff Real.two_pi_pos]
      nlinarith [Real.pi_pos]
    have hhi : θ / (2 * π) * 6 < 6 := by
      have : θ / (2 * π) < 1 := by
        rw [div_lt_one Real.two_pi_pos]
        exact h2
      linarith
    refine Int.floor_eq_iff.2 ⟨?_, ?_⟩
    · exact_mod_cast hlo
    · push_cast
      linarith
  · rw [sectorOf_eq_floor]
    rw [div_self two_pi_ne_zero]
    simp

/-- C1 witness: the sector properties applied at concrete angles, discharging
each side condition at those points. -/
theorem C1_sector_formula_witness :
    sectorOf 0 ≤ sectorOf 1 ∧ sectorOf (11 * π / 6) = 5 := by
  have h := C1_sector_formula
  have hpi := Real.pi_gt_three
  constructor
  · exact h.2.2.2.1 0 1 le_rfl (by norm_num) (by nlinarith)
  · exact h.2.2.2.2.1 (11 * π / 6) (by nlinarith) (by nlinarith)

/-! ## Tracked-object records, proximity guard, registry (src/main.py 95-134) -/

/-- A tracked-object record as built in `MyTuioListener._handle_obj`
(lines 115-122): event kind, marker symbol id, session id, normalized
position and rotation angle.  Positions are modelled as rationals (every float
is a rational); the angle, consumed only through `sectorOf`, is a real. -/
structure Rec where
  event : String
  symbol_id : ℤ
  session_id : ℤ
  x : ℚ
  y : ℚ
  angle : ℝ

/-- Proximity guard of the selection logic (lines 169-172, 208-211, 221-224,
247-250): `math.hypot(dx, dy) < 0.08`, i.e. the Euclidean distance of the two
markers is strictly below `0.08`. -/
def near (dx dy : ℚ) : Prop := Real.sqrt ((dx:ℝ)^2 + (dy:ℝ)^2) < 8/100

lemma near_iff_sq (dx dy : ℚ) : near dx dy ↔ dx^2 + dy^2 < (8/100 : ℚ)^2 := by
  unfold near
  rw [Real.sqrt_lt' (by norm_num)]
  norm_cast
  rw [show ((8:ℝ) / 100) ^ 2 = (((8 / 100 : ℚ) ^ 2 : ℚ) : ℝ) by norm_num]
  exact Rat.cast_lt

instance nearDec (dx dy : ℚ) : Decidable (near dx dy) :=
  decidable_of_iff (dx^2 + dy^2 < (8/100 : ℚ)^2) (near_iff_sq dx dy).symm

/-- Events broadcast to subscribers (spec section 6; constructed at the
`broadcast({...})` call sites of src/main.py). -/
inductive Ev where
  | tuio_obj (r : Rec)
  | wheel_open (x y : ℚ) (marker : String)
  | wheel_hover (sector : ℤ) (angle : ℝ) (x y : ℚ) (medication marker : String)
  | wheel_select_confirm (sector : ℤ) (medication marker : String)
  | nurse_wheel_open (x y : ℚ)
  | nurse_wheel_hover (sector : ℤ) (angle : ℝ) (x y : ℚ) (medication : String)
  | nurse_wheel_select_confirm (sector : ℤ) (item : String)
  | nurse_edit_med_select (sector : ℤ) (medication : String)
  | back_pressed
  | gesture_mode_toggled (enabled : Bool)
  | gesture_time_update (time : String) (minutes : ℤ)
  | gesture_time_final (time : String) (minutes : ℤ)

/-- Values of `MEDICATION_SYMBOLS` in dict (insertion) order, lines 30-37. -/
def MEDICATION_NAMES : List String :=
  ["Paracetamol", "Amoxicillin", "Aspirin", "Metformin", "Lisinopril", "Atorvastatin"]

/-- Medication name for an angle: `list(MEDICATION_SYMBOLS.values())[sector]`
(lines 153, 173, 192, 212, 225). -/
noncomputable def medAt (θ : ℝ) : String :=
  MEDICATION_NAMES.getD (sectorOf θ).toNat ""

/-- Python dict assignment `latest_objects[session_id] = record` on an
insertion-ordered association list: replace in place when the key is present,
else append at the end (line 126). -/
def upsert : List (ℤ × Rec) → ℤ → Rec → List (ℤ × Rec)
  | [], k, v => [(k, v)]
  | (k', v') :: t, k, v =>
      if k' = k then (k, v) :: t else (k', v') :: upsert t k v

/-- Python `latest_objects.pop(session_id, None)` (line 128): drop the entry
with the given key when present, otherwise leave the dict unchanged. -/
def eraseKey : List (ℤ × Rec) → ℤ → List (ℤ × Rec)
  | [], _ => []
  | (k', v') :: t, k => if k' = k then t else (k', v') :: eraseKey t k

/-- Dict lookup `latest_objects.get(session_id)`: the value stored under the
key, if any. -/
def lookupReg : List (ℤ × Rec) → ℤ → Option Rec
  | [], _ => none
  | e :: t, k => if e.1 = k then some e.2 else lookupReg t k

/-- Registry update performed by `_handle_obj` under the registry lock
(lines 124-128): `add`/`update` store the record under its session id,
anything else pops that session id. -/
def applyReg (reg : List (ℤ × Rec)) (r : Rec) : List (ℤ × Rec) :=
  if r.event = "add" ∨ r.event = "update" then upsert reg r.session_id r
  else eraseKey reg r.session_id

/-- Registry contents after a sequence of tracking events starting empty. -/
def runReg (evs : List Rec) : List (ℤ × Rec) := evs.foldl applyReg []

/-- Session ids present in the registry, in iteration order. -/
def keysOf (reg : List (ℤ × Rec)) : List ℤ := reg.map Prod.fst

/-- Record of the most recent `add`/`update` for a session id, `none` when the
most recent event for it was a remove or no event mentioned it.  Modelled from
the spec sentence about the registry invariant, for comparison with `runReg`. -/
def lastState (evs : List Rec) (s : ℤ) : Option Rec :=
  evs.foldl
    (fun acc r =>
      if r.session_id = s then
        (if r.event = "add" ∨ r.event = "update" then some r else none)
      else acc)
    none

/-! ## The interaction engine, `process_logic_and_broadcast` (lines 136-261) -/

/-- Patient-mode selection scan, lines 165-179: one `wheel_select_confirm`
per registry entry of selector role (symbol 1) within the proximity
threshold; `sector` and `med` are the enclosing branch's values. -/
def patientScan (r : Rec) (reg : List (ℤ × Rec)) (sector : ℤ) (med : String) :
    List Ev :=
  reg.filterMap (fun e =>
    if e.2.symbol_id = 1 then
      (if near (e.2.x - r.x) (e.2.y - r.y) then
        some (Ev.wheel_select_confirm sector med "patient")
      else none)
    else none)

/-- Nurse-mode selection scan, lines 203-230: per registry entry, symbol 14
within threshold emits `nurse_wheel_select_confirm`, else symbol 15 within
threshold emits `nurse_edit_med_select`. -/
def nurseScan (r : Rec) (reg : List (ℤ × Rec)) (sector : ℤ) (med : String) :
    List Ev :=
  reg.filterMap (fun e =>
    if e.2.symbol_id = 14 then
      (if near (e.2.x - r.x) (e.2.y - r.y) then
        some (Ev.nurse_wheel_select_confirm sector med)
      else none)
    else if e.2.symbol_id = 15 then
      (if near (e.2.x - r.x) (e.2.y - r.y) then
        some (Ev.nurse_edit_med_select sector med)
      else none)
    else none)

/-- Scan for a nurse-mode marker (symbol 13) within threshold, lines 242-252. -/
def marker13Nearby (r : Rec) (reg : List (ℤ × Rec)) : Bool :=
  reg.any (fun e =>
    decide (e.2.symbol_id = 13) && decide (near (e.2.x - r.x) (e.2.y - r.y)))

/-- `process_logic_and_broadcast` (lines 136-261) as a pure function: given the
incoming record, the registry contents at scan time and the current
gesture-detection flag, return the broadcast events in emission order and the
new flag value. -/
noncomputable def processLogic (r : Rec) (reg : List (ℤ × Rec)) (gEn : Bool) :
    List Ev × Bool :=
  let evs0 := [Ev.tuio_obj r]
  let evs1 :=
    if r.symbol_id = 0 ∧ r.event = "add" then
      [Ev.wheel_open r.x r.y "patient"]
    else []
  let evs2 :=
    if r.symbol_id = 0 ∧ (r.event = "add" ∨ r.event = "update") then
      Ev.wheel_hover (sectorOf r.angle) (pyMod r.angle (2 * π)) r.x r.y
          (medAt r.angle) "patient" ::
        patientScan r reg (sectorOf r.angle) (medAt r.angle)
    else []
  let evs3 :=
    if r.symbol_id = 13 ∧ r.event = "add" then
      [Ev.nurse_wheel_open r.x r.y]
    else []
  let evs4 :=
    if r.symbol_id = 13 ∧ (r.event = "add" ∨ r.event = "update") then
      Ev.nurse_wheel_hover (sectorOf r.angle) (pyMod r.angle (2 * π)) r.x r.y
          (medAt r.angle) ::
        nurseScan r reg (sectorOf r.angle) (medAt r.angle)
    else []
  let evs5 :=
    if r.symbol_id = 12 ∧ r.event = "add" then [Ev.back_pressed] else []
  let gEn1 := if r.symbol_id = 12 ∧ r.event = "add" then false else gEn
  let toggles := r.symbol_id = 15 ∧ r.event = "add" ∧ ¬ marker13Nearby r reg
  let gEn2 := if toggles then true else gEn1
  let evs6 := if toggles then [Ev.gesture_mode_toggled true] else []
  (evs0 ++ evs1 ++ evs2 ++ evs3 ++ evs4 ++ evs5 ++ evs6, gEn2)

/-- `_handle_obj` tail (lines 124-130): update the registry under its lock,
then run the interaction logic against the updated registry. -/
noncomputable def handleObj (reg : List (ℤ × Rec)) (gEn : Bool) (r : Rec) :
    (List (ℤ × Rec)) × List Ev × Bool :=
  let reg1 := applyReg reg r
  (reg1, processLogic r reg1 gEn)

/-! ## Selection-scan lemmas -/

lemma processLogic_fst_rotate (r : Rec) (reg : List (ℤ × Rec)) (g : Bool)
    (h0 : r.symbol_id = 0) (he : r.event = "add" ∨ r.event = "update") :
    (processLogic r reg g).1 =
      Ev.tuio_obj r ::
        ((if r.event = "add" then [Ev.wheel_open r.x r.y "patient"] else []) ++
         (Ev.wheel_hover (sectorOf r.angle) (pyMod r.angle (2 * π)) r.x r.y
             (medAt r.angle) "patient" ::
           patientScan r reg (sectorOf r.angle) (medAt r.angle))) := by
  have h13 : ¬ (r.symbol_id = 13) := by rw [h0]; norm_num
  have h12 : ¬ (r.symbol_id = 12) := by rw [h0]; norm_num
  have h15 : ¬ (r.symbol_id = 15) := by rw [h0]; norm_num
  rcases he with ha | hu
  · simp [processLogic, h0, h13, h12, h15, ha]
  · have ha : ¬ (r.event = "add") := by rw [hu]; decide
    simp [processLogic, h0, h13, h12, h15, ha, hu]

lemma processLogic_fst_nurse (r : Rec) (reg : List (ℤ × Rec)) (g : Bool)
    (h0 : r.symbol_id = 13) (he : r.event = "add" ∨ r.event = "update") :
    (processLogic r reg g).1 =
      Ev.tuio_obj r ::
        ((if r.event = "add" then [Ev.nurse_wheel_open r.x r.y] else []) ++
         (Ev.nurse_wheel_hover (sectorOf r.angle) (pyMod r.angle (2 * π)) r.x r.y
             (medAt r.angle) ::
           nurseScan r reg (sectorOf r.angle) (medAt r.angle))) := by
  have h00 : ¬ (r.symbol_id = 0) := by rw [h0]; norm_num
  have h12 : ¬ (r.symbol_id = 12) := by rw [h0]; norm_num
  have h15 : ¬ (r.symbol_id = 15) := by rw [h0]; norm_num
  rcases he with ha | hu
  · simp [processLogic, h0, h00, h12, h15, ha]
  · have ha : ¬ (r.event = "add") := by rw [hu]; decide
    simp [processLogic, h0, h00, h12, h15, ha, hu]

lemma mem_patientScan (r : Rec) (reg : List (ℤ × Rec)) (σ : ℤ) (μ : String) :
    Ev.wheel_select_confirm σ μ "patient" ∈ patientScan r reg σ μ ↔
      ∃ e ∈ reg, e.2.symbol_id = 1 ∧ near (e.2.x - r.x) (e.2.y - r.y) := by
  unfold patientScan
  rw [List.mem_filterMap]
  constructor
  · rintro ⟨e, he, hf⟩
    refine ⟨e, he, ?_⟩
    by_cases h1 : e.2.symbol_id = 1
    · by_cases hn : near (e.2.x - r.x) (e.2.y - r.y)
      · exact ⟨h1, hn⟩
      · simp [h1, hn] at hf
    · simp [h1] at hf
  · rintro ⟨e, he, h1, hn⟩
    exact ⟨e, he, by simp [h1, hn]⟩

lemma mem_nurseScan_confirm (r : Rec) (reg : List (ℤ × Rec)) (σ : ℤ) (μ : String) :
    Ev.nurse_wheel_select_confirm σ μ ∈ nurseScan r reg σ μ ↔
      ∃ e ∈ reg, e.2.symbol_id = 14 ∧ near (e.2.x - r.x) (e.2.y - r.y) := by
  unfold nurseScan
  rw [List.mem_filterMap]
  constructor
  · rintro ⟨e, he, hf⟩
    refine ⟨e, he, ?_⟩
    by_cases h14 : e.2.symbol_id = 14
    · by_cases hn : near (e.2.x - r.x) (e.2.y - r.y)
      · exact ⟨h14, hn⟩
      · simp [h14, hn] at hf
    · by_cases h15 : e.2.symbol_id = 15 <;>
        by_cases hn : near (e.2.x - r.x) (e.2.y - r.y) <;>
        simp [h14, h15, hn] at hf
  · rintro ⟨e, he, h14, hn⟩
    exact ⟨e, he, by simp [h14, hn]⟩

lemma mem_nurseScan_edit (r : Rec) (reg : List (ℤ × Rec)) (σ : ℤ) (μ : String) :
    Ev.nurse_edit_med_select σ μ ∈ nurseScan r reg σ μ ↔
      ∃ e ∈ reg, e.2.symbol_id = 15 ∧ near (e.2.x - r.x) (e.2.y - r.y) := by
  unfold nurseScan
  rw [List.mem_filterMap]
  constructor
  · rintro ⟨e, he, hf⟩
    refine ⟨e, he, ?_⟩
    by_cases h14 : e.2.symbol_id = 14
    · by_cases hn : near (e.2.x - r.x) (e.2.y - r.y) <;>
        simp [h14, hn] at hf
    · by_cases h15 : e.2.symbol_id = 15
      · by_cases hn : near (e.2.x - r.x) (e.2.y - r.y)
        · exact ⟨h15, hn⟩
        · simp [h14, h15, hn] at hf
      · simp [h14, h15] at hf
  · rintro ⟨e, he, h15, hn⟩
    have h14 : ¬ (e.2.symbol_id = 14) := by rw [h15]; norm_num
    exact ⟨e, he, by simp [h14, h15, hn]⟩

/-- C2. A `wheel_select_confirm` is emitted for a rotate-wheel add/update and
a registry entry of selector role exactly when the Euclidean distance between
the two markers is strictly below `0.08` (the guard `near` is literally
`sqrt(dx^2+dy^2) < 0.08`); the identical strict test governs the nurse-mode
confirmations against view-patient-info (14) and edit-medications (15)
markers; a distance of exactly `0.08` never fires. -/
theorem C2_proximity_strict :
    (∀ (r : Rec) (reg : List (ℤ × Rec)) (g : Bool),
      r.symbol_id = 0 → (r.event = "add" ∨ r.event = "update") →
      (Ev.wheel_select_confirm (sectorOf r.angle) (medAt r.angle) "patient" ∈
          (processLogic r reg g).1 ↔
        ∃ e ∈ reg, e.2.symbol_id = 1 ∧ near (e.2.x - r.x) (e.2.y - r.y))) ∧
    (∀ (r : Rec) (reg : List (ℤ × Rec)) (g : Bool),
      r.symbol_id = 13 → (r.event = "add" ∨ r.event = "update") →
      ((Ev.nurse_wheel_select_confirm (sectorOf r.angle) (medAt r.angle) ∈
          (processLogic r reg g).1 ↔
        ∃ e ∈ reg, e.2.symbol_id = 14 ∧ near (e.2.x - r.x) (e.2.y - r.y)) ∧
       (Ev.nurse_edit_med_select (sectorOf r.angle) (medAt r.angle) ∈
          (processLogic r reg g).1 ↔
        ∃ e ∈ reg, e.2.symbol_id = 15 ∧ near (e.2.x - r.x) (e.2.y - r.y)))) ∧
    (∀ dx dy : ℚ, Real.sqrt ((dx:ℝ)^2 + (dy:ℝ)^2) = 8/100 → ¬ near dx dy) := by
  refine ⟨?_, ?_, ?_⟩
  · intro r reg g h0 he
    have hm := mem_patientScan r reg (sectorOf r.angle) (medAt r.angle)
    rw [processLogic_fst_rotate r reg g h0 he, ← hm]
    by_cases ha : r.event = "add" <;> simp [ha]
  · intro r reg g h0 he
    constructor
    · have hm := mem_nurseScan_confirm r reg (sectorOf r.angle) (medAt r.angle)
      rw [processLogic_fst_nurse r reg g h0 he, ← hm]
      by_cases ha : r.event = "add" <;> simp [ha]
    · have hm := mem_nurseScan_edit r reg (sectorOf r.angle) (medAt r.angle)
      rw [processLogic_fst_nurse r reg g h0 he, ← hm]
      by_cases ha : r.event = "add" <;> simp [ha]
  · intro dx dy h
    unfold near
    rw [h]
    exact lt_irrefl _

/-- C2 witness: the iff applied to the concrete scenario of a rotate marker at
(1/2, 1/2) with a single selector marker at horizontal distance exactly 0.08
(which therefore does not fire), plus the boundary fact itself. -/
theorem C2_proximity_strict_witness :
    (Ev.wheel_select_confirm (sectorOf (0:ℝ)) (medAt (0:ℝ)) "patient" ∈
        (processLogic ⟨"add", 0, 7, 1/2, 1/2, 0⟩
          [(8, ⟨"add", 1, 8, 1/2 + 2/25, 1/2, 0⟩)] false).1 ↔
      ∃ e ∈ [((8:ℤ), (⟨"add", 1, 8, 1/2 + 2/25, 1/2, 0⟩ : Rec))],
        e.2.symbol_id = 1 ∧ near (e.2.x - 1/2) (e.2.y - 1/2)) ∧
    ¬ near (2/25) 0 := by
  constructor
  · exact C2_proximity_strict.1 ⟨"add", 0, 7, 1/2, 1/2, 0⟩ _ false rfl (Or.inl rfl)
  · refine C2_proximity_strict.2.2 (2/25) 0 ?_
    rw [show (((2:ℚ)/25 : ℚ) : ℝ)^2 + ((0:ℚ):ℝ)^2 = (8/100)^2 by norm_num]
    exact Real.sqrt_sq (by norm_num)

/-! ## Counting the confirmation events (claim C10) -/

/-- Tests whether an event is a patient-mode `wheel_select_confirm`. -/
def isWheelConfirm : Ev → Bool
  | Ev.wheel_select_confirm _ _ _ => true
  | _ => false

/-- Tests whether an event is a `nurse_wheel_select_confirm`. -/
def isNurseConfirm : Ev → Bool
  | Ev.nurse_wheel_select_confirm _ _ => true
  | _ => false

/-- Tests whether an event is a `nurse_edit_med_select`. -/
def isNurseEdit : Ev → Bool
  | Ev.nurse_edit_med_select _ _ => true
  | _ => false

lemma patientScan_countP (r : Rec) (reg : List (ℤ × Rec)) (σ : ℤ) (μ : String) :
    (patientScan r reg σ μ).countP isWheelConfirm =
      reg.countP (fun e =>
        decide (e.2.symbol_id = 1) && decide (near (e.2.x - r.x) (e.2.y - r.y))) := by
  induction reg with
  | nil => rfl
  | cons e t ih =>
    unfold patientScan at ih ⊢
    by_cases h1 : e.2.symbol_id = 1 <;>
      by_cases hn : near (e.2.x - r.x) (e.2.y - r.y) <;>
      simp [List.filterMap_cons, List.countP_cons, h1, hn, ih, isWheelConfirm]

lemma patientScan_all (r : Rec) (reg : List (ℤ × Rec)) (σ : ℤ) (μ : String) :
    ∀ ev ∈ patientScan r reg σ μ, ev = Ev.wheel_select_confirm σ μ "patient" := by
  intro ev hev
  rcases List.mem_filterMap.1 hev with ⟨e, _, hf⟩
  by_cases h1 : e.2.symbol_id = 1 <;>
    by_cases hn : near (e.2.x - r.x) (e.2.y - r.y) <;>
    simp [h1, hn] at hf
  exact hf.symm

lemma nurseScan_countP_confirm (r : Rec) (reg : List (ℤ × Rec)) (σ : ℤ) (μ : String) :
    (nurseScan r reg σ μ).countP isNurseConfirm =
      reg.countP (fun e =>
        decide (e.2.symbol_id = 14) && decide (near (e.2.x - r.x) (e.2.y - r.y))) := by
  induction reg with
  | nil => rfl
  | cons e t ih =>
    unfold nurseScan at ih ⊢
    by_cases h14 : e.2.symbol_id = 14 <;>
      by_cases h15 : e.2.symbol_id = 15 <;>
      by_cases hn : near (e.2.x - r.x) (e.2.y - r.y) <;>
      simp [List.filterMap_cons, List.countP_cons, h14, h15, hn, ih,
        isNurseConfirm]

lemma nurseScan_countP_edit (r : Rec) (reg : List (ℤ × Rec)) (σ : ℤ) (μ : String) :
    (nurseScan r reg σ μ).countP isNurseEdit =
      reg.countP (fun e =>
        decide (e.2.symbol_id = 15) && decide (near (e.2.x - r.x) (e.2.y - r.y))) := by
  induction reg with
  | nil => rfl
  | cons e t ih =>
    unfold nurseScan at ih ⊢
    by_cases h14 : e.2.symbol_id = 14 <;>
      by_cases h15 : e.2.symbol_id = 15 <;>
      by_cases hn : near (e.2.x - r.x) (e.2.y - r.y) <;>
      simp [List.filterMap_cons, List.countP_cons, h14, h15, hn, ih,
        isNurseEdit]

/-- C10. During one rotate-wheel add/update, exactly one `wheel_select_confirm`
is emitted per selector-role registry entry strictly within distance 0.08 of
the wheel marker (so `k` matches give `k` events), each carrying the same
sector and medication as the accompanying `wheel_hover`, which is also
emitted; the nurse-mode scan likewise emits one `nurse_wheel_select_confirm`
per matching symbol-14 entry and one `nurse_edit_med_select` per matching
symbol-15 entry. -/
theorem C10_one_event_per_match :
    (∀ (r : Rec) (reg : List (ℤ × Rec)) (g : Bool),
      r.symbol_id = 0 → (r.event = "add" ∨ r.event = "update") →
      ((processLogic r reg g).1.countP isWheelConfirm =
          reg.countP (fun e =>
            decide (e.2.symbol_id = 1) &&
            decide (near (e.2.x - r.x) (e.2.y - r.y))) ∧
        (∀ ev ∈ (processLogic r reg g).1, isWheelConfirm ev = true →
          ev = Ev.wheel_select_confirm (sectorOf r.angle) (medAt r.angle)
                "patient") ∧
        Ev.wheel_hover (sectorOf r.angle) (pyMod r.angle (2 * π)) r.x r.y
            (medAt r.angle) "patient" ∈ (processLogic r reg g).1)) ∧
    (∀ (r : Rec) (reg : List (ℤ × Rec)) (g : Bool),
      r.symbol_id = 13 → (r.event = "add" ∨ r.event = "update") →
      ((processLogic r reg g).1.countP isNurseConfirm =
          reg.countP (fun e =>
            decide (e.2.symbol_id = 14) &&
            decide (near (e.2.x - r.x) (e.2.y - r.y))) ∧
        (processLogic r reg g).1.countP isNurseEdit =
          reg.countP (fun e =>
            decide (e.2.symbol_id = 15) &&
            decide (near (e.2.x - r.x) (e.2.y - r.y))))) := by
  constructor
  · intro r reg g h0 he
    rw [processLogic_fst_rotate r reg g h0 he]
    refine ⟨?_, ?_, ?_⟩
    · rw [← patientScan_countP r reg (sectorOf r.angle) (medAt r.angle)]
      by_cases ha : r.event = "add" <;>
        simp [ha, List.countP_cons, List.countP_append, isWheelConfirm]
    · intro ev hev hw
      have hmem : ev ∈ patientScan r reg (sectorOf r.angle) (medAt r.angle) := by
        rcases List.mem_cons.1 hev with h | h
        · rw [h] at hw
          simp [isWheelConfirm] at hw
        rcases List.mem_append.1 h with h | h
        · by_cases ha : r.event = "add" <;> simp [ha] at h
          rw [h] at hw
          simp [isWheelConfirm] at hw
        rcases List.mem_cons.1 h with h | h
        · rw [h] at hw
          simp [isWheelConfirm] at hw
        · exact h
      exact patientScan_all r reg _ _ ev hmem
    · simp
  · intro r reg g h0 he
    rw [processLogic_fst_nurse r reg g h0 he]
    constructor
    · rw [← nurseScan_countP_confirm r reg (sectorOf r.angle) (medAt r.angle)]
      by_cases ha : r.event = "add" <;>
        simp [ha, List.countP_cons, List.countP_append, isNurseConfirm]
    · rw [← nurseScan_countP_edit r reg (sectorOf r.angle) (medAt r.angle)]
      by_cases ha : r.event = "add" <;>
        simp [ha, List.countP_cons, List.countP_append, isNurseEdit]

/-- C10 witness: the count equation applied to a concrete rotate update with
two selector markers strictly within threshold and one outside. -/
theorem C10_one_event_per_match_witness :
    (processLogic ⟨"update", 0, 7, 1/2, 1/2, 0⟩
        [(8, ⟨"add", 1, 8, 1/2 + 1/20, 1/2, 0⟩),
         (9, ⟨"add", 1, 9, 1/2, 1/2 + 1/25, 0⟩),
         (10, ⟨"add", 1, 10, 1/2 + 9/100, 1/2, 0⟩)] true).1.countP
        isWheelConfirm =
      [((8:ℤ), (⟨"add", 1, 8, 1/2 + 1/20, 1/2, 0⟩ : Rec)),
       (9, ⟨"add", 1, 9, 1/2, 1/2 + 1/25, 0⟩),
       (10, ⟨"add", 1, 10, 1/2 + 9/100, 1/2, 0⟩)].countP (fun e =>
          decide (e.2.symbol_id = 1) &&
          decide (near (e.2.x - 1/2) (e.2.y - 1/2))) :=
  (C10_one_event_per_match.1 ⟨"update", 0, 7, 1/2, 1/2, 0⟩ _ true rfl
    (Or.inr rfl)).1

/-! ## Registry invariants (claim C3) -/

lemma keysOf_nil : keysOf [] = [] := rfl

lemma keysOf_cons (e : ℤ × Rec) (t : List (ℤ × Rec)) :
    keysOf (e :: t) = e.1 :: keysOf t := rfl

lemma lookup_not_mem (reg : List (ℤ × Rec)) (k : ℤ) (h : k ∉ keysOf reg) :
    lookupReg reg k = none := by
  induction reg with
  | nil => rfl
  | cons e t ih =>
    obtain ⟨k0, v0⟩ := e
    have h0 : ¬ (k0 = k) := by
      intro hh
      exact h (by simp [keysOf_cons, hh])
    have ht : k ∉ keysOf t := fun hm => h (by simp [keysOf_cons, hm])
    simp [lookupReg, h0, ih ht]

lemma lookup_upsert_self (reg : List (ℤ × Rec)) (k : ℤ) (v : Rec) :
    lookupReg (upsert reg k v) k = some v := by
  induction reg with
  | nil => simp [upsert, lookupReg]
  | cons e t ih =>
    obtain ⟨k0, v0⟩ := e
    by_cases h : k0 = k
    · simp [upsert, h, lookupReg]
    · simp [upsert, h, lookupReg, ih]

lemma lookup_upsert_other (reg : List (ℤ × Rec)) (k k' : ℤ) (v : Rec)
    (hne : k' ≠ k) : lookupReg (upsert reg k v) k' = lookupReg reg k' := by
  have hkk : ¬ (k = k') := fun h => hne h.symm
  induction reg with
  | nil => simp [upsert, lookupReg, hkk]
  | cons e t ih =>
    obtain ⟨k0, v0⟩ := e
    by_cases h : k0 = k
    · subst h
      simp [upsert, lookupReg, hkk]
    · simp [upsert, h, lookupReg, ih]

lemma lookup_erase_other (reg : List (ℤ × Rec)) (k k' : ℤ) (hne : k' ≠ k) :
    lookupReg (eraseKey reg k) k' = lookupReg reg k' := by
  have hkk : ¬ (k = k') := fun h => hne h.symm
  induction reg with
  | nil => rfl
  | cons e t ih =>
    obtain ⟨k0, v0⟩ := e
    by_cases h : k0 = k
    · subst h
      simp [eraseKey, lookupReg, hkk]
    · simp [eraseKey, h, lookupReg, ih]

lemma keysOf_upsert (reg : List (ℤ × Rec)) (k : ℤ) (v : Rec) :
    keysOf (upsert reg k v) = if k ∈ keysOf reg then keysOf reg
      else keysOf reg ++ [k] := by
  induction reg with
  | nil => simp [upsert, keysOf_nil, keysOf_cons]
  | cons e t ih =>
    obtain ⟨k0, v0⟩ := e
    by_cases h : k0 = k
    · subst h
      simp [upsert, keysOf_cons]
    · have hne : ¬ (k = k0) := fun hh => h hh.symm
      by_cases hm : k ∈ keysOf t <;>
        simp [upsert, h, keysOf_cons, hne, hm, ih]

lemma eraseKey_sublist (reg : List (ℤ × Rec)) (k : ℤ) :
    (eraseKey reg k).Sublist reg := by
  induction reg with
  | nil => simp [eraseKey]
  | cons e t ih =>
    obtain ⟨k0, v0⟩ := e
    by_cases h : k0 = k
    · simp only [eraseKey, h, if_true, ite_true]
      exact List.sublist_cons_self _ _
    · simp only [eraseKey, h, if_false, ite_false]
      exact ih.cons₂ _

lemma nodup_keys_upsert (reg : List (ℤ × Rec)) (k : ℤ) (v : Rec)
    (h : (keysOf reg).Nodup) : (keysOf (upsert reg k v)).Nodup := by
  rw [keysOf_upsert]
  by_cases hm : k ∈ keysOf reg
  · simpa [hm] using h
  · simp only [hm, if_false, ite_false]
    simpa [List.nodup_append] using ⟨h, hm⟩

lemma nodup_keys_erase (reg : List (ℤ × Rec)) (k : ℤ)
    (h : (keysOf reg).Nodup) : (keysOf (eraseKey reg k)).Nodup :=
  h.sublist ((eraseKey_sublist reg k).map Prod.fst)

lemma lookup_erase_self (reg : List (ℤ × Rec)) (k : ℤ)
    (h : (keysOf reg).Nodup) : lookupReg (eraseKey reg k) k = none := by
  induction reg with
  | nil => rfl
  | cons e t ih =>
    obtain ⟨k0, v0⟩ := e
    rw [keysOf_cons, List.nodup_cons] at h
    by_cases hk : k0 = k
    · subst hk
      simp only [eraseKey, if_pos rfl]
      exact lookup_not_mem t k0 h.1
    · simp [eraseKey, hk, lookupReg, ih h.2]

lemma eraseKey_absent (reg : List (ℤ × Rec)) (k : ℤ)
    (h : lookupReg reg k = none) : eraseKey reg k = reg := by
  induction reg with
  | nil => rfl
  | cons e t ih =>
    obtain ⟨k0, v0⟩ := e
    by_cases hk : k0 = k
    · simp [lookupReg, hk] at h
    · simp only [lookupReg, hk, if_false, ite_false] at h
      simp [eraseKey, hk, ih h]

lemma nodup_keys_applyReg (reg : List (ℤ × Rec)) (r : Rec)
    (h : (keysOf reg).Nodup) : (keysOf (applyReg reg r)).Nodup := by
  unfold applyReg
  by_cases he : r.event = "add" ∨ r.event = "update" <;>
    simp only [he, if_true, if_false, ite_true, ite_false]
  · exact nodup_keys_upsert reg r.session_id r h
  · exact nodup_keys_erase reg r.session_id h

lemma lookup_applyReg (reg : List (ℤ × Rec)) (r : Rec) (s : ℤ)
    (h : (keysOf reg).Nodup) :
    lookupReg (applyReg reg r) s =
      if r.session_id = s then
        (if r.event = "add" ∨ r.event = "update" then some r else none)
      else lookupReg reg s := by
  unfold applyReg
  by_cases he : r.event = "add" ∨ r.event = "update"
  · by_cases hs : r.session_id = s
    · subst hs
      simp [he, lookup_upsert_self]
    · simp [he, hs, lookup_upsert_other reg r.session_id s r
        (fun hh => hs hh.symm)]
  · by_cases hs : r.session_id = s
    · subst hs
      simp [he, lookup_erase_self reg r.session_id h]
    · simp [he, hs, lookup_erase_other reg r.session_id s
        (fun hh => hs hh.symm)]

lemma nodup_keys_runReg_aux (evs : List Rec) (reg : List (ℤ × Rec))
    (h : (keysOf reg).Nodup) : (keysOf (evs.foldl applyReg reg)).Nodup := by
  induction evs generalizing reg with
  | nil => exact h
  | cons r t ih => exact ih (applyReg reg r) (nodup_keys_applyReg reg r h)

lemma lookup_runReg_aux (evs : List Rec) (reg : List (ℤ × Rec)) (s : ℤ)
    (h : (keysOf reg).Nodup) :
    lookupReg (evs.foldl applyReg reg) s =
      evs.foldl
        (fun acc r =>
          if r.session_id = s then
            (if r.event = "add" ∨ r.event = "update" then some r else none)
          else acc)
        (lookupReg reg s) := by
  induction evs generalizing reg with
  | nil => rfl
  | cons r t ih =>
    simp only [List.foldl_cons]
    rw [ih (applyReg reg r) (nodup_keys_applyReg reg r h),
      lookup_applyReg reg r s h]

lemma lastState_keeps_none (evs : List Rec) (s : ℤ)
    (h : ∀ r ∈ evs, r.session_id = s → ¬ (r.event = "add" ∨ r.event = "update")) :
    evs.foldl
      (fun acc r =>
        if r.session_id = s then
          (if r.event = "add" ∨ r.event = "update" then some r else none)
        else acc)
      none = none := by
  induction evs with
  | nil => rfl
  | cons r t ih =>
    simp only [List.foldl_cons]
    by_cases hs : r.session_id = s
    · have hne := h r (List.mem_cons_self r t) hs
      simp only [hs, if_true, hne, if_false, ite_true, ite_false]
      exact ih (fun r' hr' => h r' (List.mem_cons_of_mem r hr'))
    · simp only [hs, if_false, ite_false]
      exact ih (fun r' hr' => h r' (List.mem_cons_of_mem r hr'))

/-- C3. Registry invariants: starting from empty, after any sequence of
tracking events (i) each session id occurs at most once in the registry,
(ii) the entry looked up for a session id is exactly the record of the most
recent add/update for it (and is absent when the most recent event for it was
a remove), (iii) a remove for an absent session id leaves the registry
unchanged, and (iv) after a remove for `s`, `s` stays absent through any
further events that never re-add it. -/
theorem C3_registry_invariants :
    (∀ evs : List Rec, (keysOf (runReg evs)).Nodup) ∧
    (∀ (evs : List Rec) (s : ℤ), lookupReg (runReg evs) s = lastState evs s) ∧
    (∀ (reg : List (ℤ × Rec)) (r : Rec), r.event = "remove" →
      lookupReg reg r.session_id = none → applyReg reg r = reg) ∧
    (∀ (pre post : List Rec) (r : Rec) (s : ℤ),
      r.session_id = s → r.event = "remove" →
      (∀ r' ∈ post, r'.session_id = s →
        ¬ (r'.event = "add" ∨ r'.event = "update")) →
      lookupReg (runReg (pre ++ r :: post)) s = none) := by
  refine ⟨?_, ?_, ?_, ?_⟩
  · intro evs
    exact nodup_keys_runReg_aux evs [] (by simp [keysOf_nil])
  · intro evs s
    exact lookup_runReg_aux evs [] s (by simp [keysOf_nil])
  · intro reg r hrem habs
    unfold applyReg
    have hne : ¬ (r.event = "add" ∨ r.event = "update") := by
      rw [hrem]; decide
    rw [if_neg hne]
    exact eraseKey_absent reg r.session_id habs
  · intro pre post r s hs hrem hpost
    have hsplit : runReg (pre ++ r :: post) =
        (r :: post).foldl applyReg (runReg pre) := by
      unfold runReg
      rw [List.foldl_append]
    rw [hsplit]
    have hnd : (keysOf (runReg pre)).Nodup :=
      nodup_keys_runReg_aux pre [] (by simp [keysOf_nil])
    rw [lookup_runReg_aux (r :: post) (runReg pre) s hnd]
    have hne : ¬ (r.event = "add" ∨ r.event = "update") := by
      rw [hrem]; decide
    simp only [List.foldl_cons, hs, if_true, hne, if_false, ite_true, ite_false]
    exact lastState_keeps_none post s hpost

/-- C3 witness: the invariants applied to a concrete event sequence in which a
marker is added then updated, a remove of an unknown session id is a no-op,
and a removed session id no longer resolves. -/
theorem C3_registry_invariants_witness :
    lookupReg (runReg [⟨"add", 0, 7, 1/2, 1/2, 0⟩,
        ⟨"update", 0, 7, 1/4, 1/2, 0⟩]) 7 =
      lastState [⟨"add", 0, 7, 1/2, 1/2, 0⟩, ⟨"update", 0, 7, 1/4, 1/2, 0⟩] 7 ∧
    applyReg [] ⟨"remove", 0, 9, 1/2, 1/2, 0⟩ = [] ∧
    lookupReg (runReg ([⟨"add", 0, 7, 1/2, 1/2, 0⟩] ++
      (⟨"remove", 0, 7, 1/2, 1/2, 0⟩ : Rec) :: [])) 7 = none := by
  refine ⟨?_, ?_, ?_⟩
  · exact C3_registry_invariants.2.1 _ 7
  · exact C3_registry_invariants.2.2.1 [] ⟨"remove", 0, 9, 1/2, 1/2, 0⟩ rfl rfl
  · exact C3_registry_invariants.2.2.2 [⟨"add", 0, 7, 1/2, 1/2, 0⟩] []
      ⟨"remove", 0, 7, 1/2, 1/2, 0⟩ 7 rfl rfl (by simp)

/-! ## Broadcast hub, `broadcast` (src/main.py lines 57-75), claim C8 -/

/-- One delivery sweep of `broadcast` (lines 60-68): walk the subscriber list
in order, attempting `sendall` on each handle; the first component collects
the handles delivered successfully (in order), the second the failed handles
appended to `dead` (in order).  `fails h` tells whether `sendall` raises for
handle `h` during this broadcast. -/
def sweep {H : Type} (fails : H → Bool) (clients : List H) : List H × List H :=
  clients.foldl
    (fun acc c =>
      if fails c then (acc.1, acc.2 ++ [c]) else (acc.1 ++ [c], acc.2))
    ([], [])

/-- `broadcast` (lines 57-75): serialize the event once before the loop,
attempt delivery to every handle in the current subscriber list, then remove
each failed handle from the list (`clients.remove(dead_client)`, which drops
the first occurrence) after the full sweep.  Returns the per-handle delivery
attempts (each carrying the single serialized payload), the successfully
delivered handles, and the new subscriber list. -/
def broadcastStep {H : Type} [DecidableEq H] (serialize : Ev → String) (ev : Ev)
    (fails : H → Bool) (clients : List H) :
    List (H × String) × List H × List H :=
  let data := serialize ev
  let sd := sweep fails clients
  (clients.map (fun c => (c, data)), sd.1, sd.2.foldl List.erase clients)

lemma sweep_aux {H : Type} (fails : H → Bool) :
    ∀ (l : List H) (s d : List H),
      l.foldl
        (fun acc c =>
          if fails c then (acc.1, acc.2 ++ [c]) else (acc.1 ++ [c], acc.2))
        (s, d) =
      (s ++ l.filter (fun c => ! fails c), d ++ l.filter fails) := by
  intro l
  induction l with
  | nil => intro s d; simp
  | cons c t ih =>
    intro s d
    by_cases h : fails c = true <;>
      simp [List.filter_cons, h, ih]

lemma sweep_eq {H : Type} (fails : H → Bool) (clients : List H) :
    sweep fails clients =
      (clients.filter (fun c => ! fails c), clients.filter fails) := by
  unfold sweep
  rw [sweep_aux]
  simp

lemma foldl_erase_of_ne {H : Type} [DecidableEq H] :
    ∀ (d : List H) (a : H) (t : List H), (∀ x ∈ d, x ≠ a) →
      d.foldl List.erase (a :: t) = a :: d.foldl List.erase t := by
  intro d
  induction d with
  | nil => intro a t _; rfl
  | cons x d' ih =>
    intro a t h
    have hx : ¬ (x = a) := h x (List.mem_cons_self x d')
    have ha : ¬ (a = x) := fun hh => hx hh.symm
    simp only [List.foldl_cons]
    rw [List.erase_cons_tail (by simpa using ha)]
    exact ih a (t.erase x) (fun y hy => h y (List.mem_cons_of_mem x hy))

lemma foldl_erase_filter {H : Type} [DecidableEq H] (p : H → Bool) :
    ∀ l : List H, (l.filter p).foldl List.erase l = l.filter (fun a => ! p a) := by
  intro l
  induction l with
  | nil => rfl
  | cons a t ih =>
    by_cases h : p a = true
    · simp only [List.filter_cons, h, if_true, ite_true, List.foldl_cons,
        List.erase_cons_head]
      simpa [h] using ih
    · have hfa : p a = false := by simpa using h
      simp only [List.filter_cons, hfa, Bool.false_eq_true, if_false, ite_false]
      rw [foldl_erase_of_ne (t.filter p) a t]
      · simp [hfa, ih]
      · intro x hx hxa
        rw [hxa] at hx
        exact h (List.of_mem_filter hx)

/-- C8. `broadcast` serializes the event once and attempts delivery of that
single payload to every handle present when the sweep begins (one failure
never suppresses the attempts to the others); after the full sweep the
subscriber list equals the prior list minus exactly the handles whose
delivery failed, and every handle whose delivery succeeded remains. -/
theorem C8_broadcast_churn {H : Type} [DecidableEq H]
    (serialize : Ev → String) (ev : Ev) (fails : H → Bool) (clients : List H) :
    (broadcastStep serialize ev fails clients).1 =
      clients.map (fun c => (c, serialize ev)) ∧
    (broadcastStep serialize ev fails clients).2.1 =
      clients.filter (fun c => ! fails c) ∧
    (broadcastStep serialize ev fails clients).2.2 =
      clients.filter (fun c => ! fails c) := by
  refine ⟨rfl, ?_, ?_⟩
  · unfold broadcastStep
    rw [sweep_eq]
  · unfold broadcastStep
    rw [sweep_eq]
    exact foldl_erase_filter fails clients

/-! ## Time-adjustment controller, `hand_tracking_thread` (lines 366-614) -/

/-- Python `int()` on a rational value: truncation toward zero. -/
def intTruncQ (q : ℚ) : ℤ := if 0 ≤ q then ⌊q⌋ else -⌊-q⌋

/-- Zero-padded two-digit rendering, `f"{n:02d}"` for the values in range. -/
def pad2 (n : ℤ) : String := if n < 10 then "0" ++ toString n else toString n

/-- `HH:MM` rendering of minutes since midnight (lines 398-400, 523-525,
563-566): `hours = m // 60; minutes = m % 60` with Python floor division. -/
def timeStr (m : ℤ) : String := pad2 (Int.fdiv m 60) ++ ":" ++ pad2 (Int.fmod m 60)

/-- Minute value from the hand x position (lines 556-561):
`offset = (hand_x - 0.5) * 2 * 240; cur = 450 + int(offset);
cur = max(0, min(1439, cur))`. -/
def adjustMinutes (handX : ℚ) : ℤ :=
  max 0 (min 1439 (450 + intTruncQ ((handX - 1/2) * 2 * 240)))

/-- Minute formula as the claim words it, with rounding to the nearest integer
in place of the code's `int()` truncation.  Modelled from the spec sentence
for comparison with `adjustMinutes`. -/
def adjustMinutesRound (handX : ℚ) : ℤ :=
  max 0 (min 1439 (450 + round ((handX - 1/2) * 2 * 240)))

/-- State of the camera/gesture pipeline across iterations of the
`while running` loop of `hand_tracking_thread`: whether the pipeline is
active (`gesture_active`, camera open), the currently selected minutes, and
the time of the last rate-limited broadcast. -/
structure GState where
  active : Bool
  cur : ℤ
  lastB : ℚ

/-- Inputs consumed by one loop iteration: the `gesture_detection_enabled`
flag read at the top, the wall clock `time.time()`, whether the camera opens
successfully when attempted, the processed frame (hand x position, fist
detection outcome) when a hand is seen, the number of connected clients, and
whether the preview window received a quit keypress. -/
structure GInput where
  enabled : Bool
  now : ℚ
  camOk : Bool
  frame : Option (ℚ × Bool)
  clients : ℕ
  quit : Bool

/-- Result of one loop iteration: new loop state, broadcast events in order,
and the value written to the shared `gesture_detection_enabled` flag, if
any. -/
structure GOut where
  state : GState
  events : List Ev
  flagWrite : Option Bool

/-- Frame processing (lines 473-612), reached with the camera open: a fist
broadcasts the final time and then the mode-toggle, both only when at least
one client is connected, and clears the enabled flag (lines 519-551);
otherwise the hand position sets the current minutes (lines 556-561) and a
rate-limited `gesture_time_update` goes out (lines 568-576); a quit keypress
clears the flag (lines 608-612). -/
def processFrame (s : GState) (i : GInput) : GOut :=
  match i.frame with
  | none =>
      { state := s, events := [],
        flagWrite := if i.quit then some false else none }
  | some (hx, fist) =>
      if fist then
        { state := s,
          events :=
            if 0 < i.clients then
              [Ev.gesture_time_final (timeStr s.cur) s.cur,
               Ev.gesture_mode_toggled false]
            else [],
          flagWrite := some false }
      else
        let cur2 := adjustMinutes hx
        if i.now - s.lastB ≥ 1/2 then
          { state := { active := s.active, cur := cur2, lastB := i.now },
            events := [Ev.gesture_time_update (timeStr cur2) cur2],
            flagWrite := if i.quit then some false else none }
        else
          { state := { active := s.active, cur := cur2, lastB := s.lastB },
            events := [],
            flagWrite := if i.quit then some false else none }

/-- One iteration of the `while running` loop of `hand_tracking_thread`
(lines 387-614): a disabled flag while active broadcasts the final time and
closes the camera (lines 393-413); an enabled flag with the camera closed
attempts to open it, resetting the time to 450 and falling through to frame
processing on success (lines 416-470). -/
def gestureStep (s : GState) (i : GInput) : GOut :=
  if i.enabled = false then
    if s.active then
      { state := { active := false, cur := s.cur, lastB := s.lastB },
        events := [Ev.gesture_time_final (timeStr s.cur) s.cur],
        flagWrite := none }
    else
      { state := s, events := [], flagWrite := none }
  else
    if s.active = false then
      if i.camOk = false then { state := s, events := [], flagWrite := none }
      else processFrame { active := true, cur := 450, lastB := s.lastB } i
    else
      processFrame s i

/-- C5 counterexample: at hand position `1/2 + 7/4800` (offset `0.7` minutes)
the code's `int()` truncation yields 450 while the claimed rounding formula
yields 451, so the controller's minute value is not the claimed
`clamp(450 + round((x-0.5)*2*240), 0, 1439)`. -/
theorem C5_round_counterexample :
    adjustMinutes (1/2 + 7/4800) = 450 ∧
    adjustMinutesRound (1/2 + 7/4800) = 451 ∧
    adjustMinutes (1/2 + 7/4800) ≠ adjustMinutesRound (1/2 + 7/4800) := by
  have h1 : adjustMinutes (1/2 + 7/4800) = 450 := by
    norm_num [adjustMinutes, intTruncQ]
  have h2 : adjustMinutesRound (1/2 + 7/4800) = 451 := by
    norm_num [adjustMinutesRound, round_eq]
  refine ⟨h1, h2, by rw [h1, h2]; decide⟩

/-- C5 (amended). The controller's minute value is
`clamp(450 + trunc((x-0.5)*2*240), 0, 1439)` with truncation toward zero
(Python `int()`) rather than rounding; in particular `x = 1/2 ↦ 450`,
`x = 0 ↦ 210`, `x = 1 ↦ 690`, every produced value lies in `[0, 1439]`, and
the loop's non-fist frame handling stores exactly this value. -/
theorem C5_minutes_clamped_trunc :
    (∀ x : ℚ, adjustMinutes x =
      max 0 (min 1439 (450 + intTruncQ ((x - 1/2) * 2 * 240)))) ∧
    adjustMinutes (1/2) = 450 ∧
    adjustMinutes 0 = 210 ∧
    adjustMinutes 1 = 690 ∧
    (∀ x : ℚ, 0 ≤ adjustMinutes x ∧ adjustMinutes x ≤ 1439) ∧
    (∀ (s : GState) (i : GInput) (hx : ℚ),
      i.enabled = true → s.active = true → i.frame = some (hx, false) →
      (gestureStep s i).state.cur = adjustMinutes hx) := by
  refine ⟨fun x => rfl, by norm_num [adjustMinutes, intTruncQ],
    by norm_num [adjustMinutes, intTruncQ],
    by norm_num [adjustMinutes, intTruncQ], ?_, ?_⟩
  · intro x
    unfold adjustMinutes
    constructor
    · exact le_max_left 0 _
    · exact max_le (by norm_num) (le_trans (min_le_left _ _) (by norm_num))
  · intro s i hx hen hact hfr
    have h1 : gestureStep s i = processFrame s i := by
      simp [gestureStep, hen, hact]
    rw [h1]
    simp only [processFrame, hfr]
    rw [if_neg (by decide : ¬ (false = true))]
    split <;> rfl

/-- C5 witness: the frame-handling conjunct applied to a concrete active
state and a frame with the hand at the right edge. -/
theorem C5_minutes_clamped_trunc_witness :
    (gestureStep ⟨true, 450, 0⟩ ⟨true, 1, true, some (1, false), 1, false⟩).state.cur =
      adjustMinutes 1 :=
  C5_minutes_clamped_trunc.2.2.2.2.2 ⟨true, 450, 0⟩
    ⟨true, 1, true, some (1, false), 1, false⟩ 1 rfl rfl rfl

/-- C4 counterexample: an iteration that finds the controller disabled while
still active (the external-disable case of the claim) broadcasts exactly one
`gesture_time_final` and no `gesture_mode_toggled{enabled:false}` at all, so
the final event is not followed by the claimed toggle event. -/
theorem C4_counterexample :
    (gestureStep ⟨true, 500, 0⟩ ⟨false, 0, true, none, 1, false⟩).events =
      [Ev.gesture_time_final "08:20" 500] ∧
    Ev.gesture_mode_toggled false ∉
      (gestureStep ⟨true, 500, 0⟩ ⟨false, 0, true, none, 1, false⟩).events := by
  constructor
  · rfl
  · intro h
    simp [gestureStep] at h

/-- C4 (amended). On a fist commit while active and enabled with at least one
subscriber connected, the loop immediately broadcasts `gesture_time_final`
followed by `gesture_mode_toggled{enabled:false}` and writes the enabled flag
to false, but leaves the camera state active, so the next iteration (seeing
the flag disabled while still active) broadcasts `gesture_time_final` a
second time; when disabled externally while active, a single
`gesture_time_final` is broadcast with no `gesture_mode_toggled` at all; with
no subscribers connected the commit itself broadcasts nothing. -/
theorem C4_commit_emission :
    (∀ (s : GState) (i : GInput) (hx : ℚ),
      i.enabled = true → s.active = true → i.frame = some (hx, true) →
      0 < i.clients →
      (gestureStep s i).events =
        [Ev.gesture_time_final (timeStr s.cur) s.cur,
         Ev.gesture_mode_toggled false] ∧
      (gestureStep s i).flagWrite = some false ∧
      (gestureStep s i).state = s) ∧
    (∀ (s : GState) (i : GInput),
      i.enabled = false → s.active = true →
      (gestureStep s i).events =
        [Ev.gesture_time_final (timeStr s.cur) s.cur] ∧
      (gestureStep s i).state.active = false ∧
      (gestureStep s i).flagWrite = none) ∧
    (∀ (s : GState) (i j : GInput) (hx : ℚ),
      i.enabled = true → s.active = true → i.frame = some (hx, true) →
      0 < i.clients → j.enabled = false →
      (gestureStep s i).events ++
          (gestureStep (gestureStep s i).state j).events =
        [Ev.gesture_time_final (timeStr s.cur) s.cur,
         Ev.gesture_mode_toggled false,
         Ev.gesture_time_final (timeStr s.cur) s.cur]) ∧
    (∀ (s : GState) (i : GInput) (hx : ℚ),
      i.enabled = true → s.active = true → i.frame = some (hx, true) →
      i.clients = 0 →
      (gestureStep s i).events = [] ∧
      (gestureStep s i).flagWrite = some false) := by
  refine ⟨?_, ?_, ?_, ?_⟩
  · intro s i hx hen hact hfr hcl
    have h1 : gestureStep s i = processFrame s i := by
      simp [gestureStep, hen, hact]
    rw [h1]
    simp [processFrame, hfr, hcl]
  · intro s i hen hact
    simp [gestureStep, hen, hact]
  · intro s i j hx hen hact hfr hcl hjen
    have h1 : gestureStep s i = processFrame s i := by
      simp [gestureStep, hen, hact]
    have hstate : (gestureStep s i).state = s := by
      rw [h1]
      simp [processFrame, hfr]
    have hev1 : (gestureStep s i).events =
        [Ev.gesture_time_final (timeStr s.cur) s.cur,
         Ev.gesture_mode_toggled false] := by
      rw [h1]
      simp [processFrame, hfr, hcl]
    rw [hev1, hstate]
    have hev2 : (gestureStep s j).events =
        [Ev.gesture_time_final (timeStr s.cur) s.cur] := by
      simp [gestureStep, hjen, hact]
    rw [hev2]
    rfl
  · intro s i hx hen hact hfr hcl
    have h1 : gestureStep s i = processFrame s i := by
      simp [gestureStep, hen, hact]
    rw [h1]
    simp [processFrame, hfr, hcl]

/-- C4 witness: the amended emission behavior applied to a concrete commit at
07:30 followed by the disabled housekeeping pass. -/
theorem C4_commit_emission_witness :
    (gestureStep ⟨true, 450, 0⟩ ⟨true, 0, true, some (1/2, true), 1, false⟩).events ++
        (gestureStep
          (gestureStep ⟨true, 450, 0⟩
            ⟨true, 0, true, some (1/2, true), 1, false⟩).state
          ⟨false, 1, true, none, 1, false⟩).events =
      [Ev.gesture_time_final (timeStr 450) 450,
       Ev.gesture_mode_toggled false,
       Ev.gesture_time_final (timeStr 450) 450] :=
  C4_commit_emission.2.2.1 ⟨true, 450, 0⟩
    ⟨true, 0, true, some (1/2, true), 1, false⟩
    ⟨false, 1, true, none, 1, false⟩ (1/2) rfl rfl rfl (by decide) rfl

/-! ## Lock-acquisition traces (claim C9) -/

/-- Acquisitions and releases of the registry lock (`latest_objects_lock`)
and the hub lock (`clients_lock`). -/
inductive Act where
  | acqReg
  | relReg
  | acqHub
  | relHub
deriving DecidableEq

/-- Lock trace of one `broadcast` call (lines 57-75): the whole delivery
sweep runs inside `with clients_lock`. -/
def hubCall : List Act := [Act.acqHub, Act.relHub]

/-- Lock-acquisition trace of `process_logic_and_broadcast` (lines 136-261)
for one incoming record against the given registry contents: each `broadcast`
contributes a `hubCall`; the selection scans (lines 166-179 and 204-230) run
their per-match broadcasts inside `with latest_objects_lock`; the
edit-medications scan (lines 244-252) holds the registry lock without
broadcasting. -/
def logicTrace (r : Rec) (reg : List (ℤ × Rec)) : List Act :=
  hubCall ++
  (if r.symbol_id = 0 ∧ r.event = "add" then hubCall else []) ++
  (if r.symbol_id = 0 ∧ (r.event = "add" ∨ r.event = "update") then
    hubCall ++
      ([Act.acqReg] ++
       reg.flatMap (fun e =>
         if e.2.symbol_id = 1 ∧ near (e.2.x - r.x) (e.2.y - r.y) then hubCall
         else []) ++
       [Act.relReg])
  else []) ++
  (if r.symbol_id = 13 ∧ r.event = "add" then hubCall else []) ++
  (if r.symbol_id = 13 ∧ (r.event = "add" ∨ r.event = "update") then
    hubCall ++
      ([Act.acqReg] ++
       reg.flatMap (fun e =>
         if e.2.symbol_id = 14 ∧ near (e.2.x - r.x) (e.2.y - r.y) then hubCall
         else if e.2.symbol_id = 15 ∧ near (e.2.x - r.x) (e.2.y - r.y) then
           hubCall
         else []) ++
       [Act.relReg])
  else []) ++
  (if r.symbol_id = 12 ∧ r.event = "add" then hubCall else []) ++
  (if r.symbol_id = 15 ∧ r.event = "add" then
    [Act.acqReg, Act.relReg] ++
      (if ¬ marker13Nearby r reg then hubCall else [])
  else [])

/-- Lock trace of `_handle_obj` (lines 124-130): the registry update happens
under the registry lock, then the interaction logic runs. -/
def handleTrace (r : Rec) (reg : List (ℤ × Rec)) : List Act :=
  [Act.acqReg, Act.relReg] ++ logicTrace r reg

/-- Walks a trace tracking (registry held, hub held); true when at some point
both locks are held at once. -/
def bothHeldDuring : Bool → Bool → List Act → Bool
  | _, _, [] => false
  | _, hH, Act.acqReg :: t => hH || bothHeldDuring true hH t
  | _, hH, Act.relReg :: t => bothHeldDuring false hH t
  | rH, _, Act.acqHub :: t => rH || bothHeldDuring rH true t
  | rH, _, Act.relHub :: t => bothHeldDuring rH false t

/-- Walks a trace tracking whether the hub lock is held; true when hub-lock
usage is properly bracketed and the registry lock is never acquired while the
hub lock is held (lock order Registry before Hub only). -/
def regNeverInsideHub : Bool → List Act → Bool
  | _, [] => true
  | hH, Act.acqHub :: t => !hH && regNeverInsideHub true t
  | hH, Act.relHub :: t => hH && regNeverInsideHub false t
  | hH, Act.acqReg :: t => !hH && regNeverInsideHub hH t
  | hH, Act.relReg :: t => regNeverInsideHub hH t

/-- C9 counterexample: for a rotate-wheel add with one selector marker within
threshold, the selection scan publishes to the Hub while still holding the
Registry lock, so the two locks are held simultaneously, contradicting the
claimed copy-then-release discipline. -/
theorem C9_counterexample :
    bothHeldDuring false false
      (handleTrace ⟨"add", 0, 7, 1/2, 1/2, 0⟩
        [(8, ⟨"add", 1, 8, 1/2, 1/2, 0⟩)]) = true := by
  have hnear : near 0 0 := by
    rw [near_iff_sq]
    norm_num
  norm_num [handleTrace, logicTrace, hubCall, bothHeldDuring, hnear]

/-- Segments that leave the lock checker invariant when entered with the hub
lock free. -/
def SafeT (l : List Act) : Prop :=
  ∀ t, regNeverInsideHub false (l ++ t) = regNeverInsideHub false t

lemma safeT_nil : SafeT [] := fun _ => rfl

lemma safeT_hubCall : SafeT hubCall := by
  intro t
  simp [hubCall, regNeverInsideHub]

lemma safeT_acqRel : SafeT [Act.acqReg, Act.relReg] := by
  intro t
  simp [regNeverInsideHub]

lemma safeT_acqReg : SafeT [Act.acqReg] := by
  intro t
  simp [regNeverInsideHub]

lemma safeT_relReg : SafeT [Act.relReg] := by
  intro t
  simp [regNeverInsideHub]

lemma safeT_append {l1 l2 : List Act} (h1 : SafeT l1) (h2 : SafeT l2) :
    SafeT (l1 ++ l2) := by
  intro t
  rw [List.append_assoc, h1, h2]

lemma safeT_ite (c : Prop) [Decidable c] {l1 l2 : List Act} (h1 : SafeT l1)
    (h2 : SafeT l2) : SafeT (if c then l1 else l2) := by
  by_cases h : c
  · rw [if_pos h]; exact h1
  · rw [if_neg h]; exact h2

lemma safeT_flatMap {α : Type} (f : α → List Act) (L : List α)
    (h : ∀ e, SafeT (f e)) : SafeT (L.flatMap f) := by
  induction L with
  | nil => exact safeT_nil
  | cons e t ih =>
    rw [List.flatMap_cons]
    exact safeT_append (h e) ih

/-- C9 (amended). The selection scans copy the registry items but keep
holding the Registry lock through the proximity matching and the Hub
publishes, so the two locks are held simultaneously; the nesting is
nevertheless consistently Registry-then-Hub: across the whole handler the hub
lock is properly bracketed and the Registry lock is never acquired while the
Hub lock is held, so no lock-ordering cycle arises. -/
theorem C9_lock_order (r : Rec) (reg : List (ℤ × Rec)) :
    regNeverInsideHub false (handleTrace r reg) = true := by
  have hsafe : SafeT (handleTrace r reg) := by
    unfold handleTrace logicTrace
    refine safeT_append safeT_acqRel ?_
    refine safeT_append (safeT_append (safeT_append (safeT_append
      (safeT_append (safeT_append safeT_hubCall
        (safeT_ite _ safeT_hubCall safeT_nil)) ?_)
        (safeT_ite _ safeT_hubCall safeT_nil)) ?_)
      (safeT_ite _ safeT_hubCall safeT_nil)) ?_
    · refine safeT_ite _ ?_ safeT_nil
      refine safeT_append safeT_hubCall ?_
      refine safeT_append (safeT_append safeT_acqReg ?_) safeT_relReg
      refine safeT_flatMap _ _ (fun e => safeT_ite _ safeT_hubCall safeT_nil)
    · refine safeT_ite _ ?_ safeT_nil
      refine safeT_append safeT_hubCall ?_
      refine safeT_append (safeT_append safeT_acqReg ?_) safeT_relReg
      refine safeT_flatMap _ _
        (fun e => safeT_ite _ safeT_hubCall (safeT_ite _ safeT_hubCall safeT_nil))
    · refine safeT_ite _ ?_ safeT_nil
      exact safeT_append safeT_acqRel (safeT_ite _ safeT_hubCall safeT_nil)
  have h := hsafe []
  rw [List.append_nil] at h
  rw [h]
  rfl

/-! ## The stroke classifier, `DollarRecognizer` (src/main.py lines 264-363) -/

/-- A 2-D point of the gesture classifier (class `Point`, lines 265-268). -/
structure Pt where
  x : ℝ
  y : ℝ

/-- Euclidean distance, `DollarRecognizer._distance` (lines 323-324). -/
noncomputable def ptDist (p q : Pt) : ℝ :=
  Real.sqrt ((p.x - q.x)^2 + (p.y - q.y)^2)

/-- Polyline length from a head point through the remaining points,
`DollarRecognizer._path_length` (lines 317-321). -/
noncomputable def pathLen : Pt → List Pt → ℝ
  | _, [] => 0
  | p, q :: t => ptDist p q + pathLen q t

/-- Linear interpolation along a segment (lines 302-304):
`q = p + t * (next - p)` coordinatewise. -/
def lerp (p q : Pt) (t : ℝ) : Pt :=
  ⟨p.x + t * (q.x - p.x), p.y + t * (q.y - p.y)⟩

lemma ptDist_nonneg (p q : Pt) : 0 ≤ ptDist p q := Real.sqrt_nonneg _

lemma ptDist_self (p : Pt) : ptDist p p = 0 := by
  simp [ptDist]

lemma ptDist_eq_zero_iff (p q : Pt) : ptDist p q = 0 ↔ p = q := by
  unfold ptDist
  rw [Real.sqrt_eq_zero (by positivity)]
  constructor
  · intro h
    have hx : p.x - q.x = 0 := by nlinarith [sq_nonneg (p.x - q.x), sq_nonneg (p.y - q.y)]
    have hy : p.y - q.y = 0 := by nlinarith [sq_nonneg (p.x - q.x), sq_nonneg (p.y - q.y)]
    obtain ⟨px, py⟩ := p
    obtain ⟨qx, qy⟩ := q
    simp only at hx hy
    simp [show px = qx by linarith, show py = qy by linarith]
  · intro h
    rw [h]
    simp

lemma pathLen_nonneg (p : Pt) (l : List Pt) : 0 ≤ pathLen p l := by
  induction l generalizing p with
  | nil => simp [pathLen]
  | cons q t ih => 
    simp only [pathLen]
    have := ptDist_nonneg p q
    have := ih q
    linarith

lemma ptDist_lerp_left (p q : Pt) (t : ℝ) (h0 : 0 ≤ t) :
    ptDist p (lerp p q t) = t * ptDist p q := by
  unfold ptDist lerp
  simp only
  have h1 : (p.x - (p.x + t * (q.x - p.x)))^2 + (p.y - (p.y + t * (q.y - p.y)))^2
      = t^2 * ((p.x - q.x)^2 + (p.y - q.y)^2) := by ring
  rw [h1, Real.sqrt_mul (by positivity), Real.sqrt_sq h0]

lemma ptDist_lerp_right (p q : Pt) (t : ℝ) (h1 : t ≤ 1) :
    ptDist (lerp p q t) q = (1 - t) * ptDist p q := by
  unfold ptDist lerp
  simp only
  have h2 : (p.x + t * (q.x - p.x) - q.x)^2 + (p.y + t * (q.y - p.y) - q.y)^2
      = (1 - t)^2 * ((p.x - q.x)^2 + (p.y - q.y)^2) := by ring
  rw [h2, Real.sqrt_mul (by positivity), Real.sqrt_sq (by linarith)]

lemma pathLen_eq_zero_getLast (p : Pt) (l : List Pt) (h : pathLen p l = 0) :
    (p :: l).getLast? = some p := by
  induction l generalizing p with
  | nil => rfl
  | cons q t ih =>
    simp only [pathLen] at h
    have h1 : ptDist p q = 0 := by
      have := ptDist_nonneg p q
      have := pathLen_nonneg q t
      linarith
    have h2 : pathLen q t = 0 := by
      have := ptDist_nonneg p q
      have := pathLen_nonneg q t
      linarith
    have hpq : p = q := (ptDist_eq_zero_iff p q).1 h1
    rw [List.getLast?_cons_cons]
    rw [ih q h2, hpq]

/-- The while loop of `DollarRecognizer._resample` (lines 298-310) as a
recursion: `prev` is `points[i-1]`, the list argument is `points[i:]` and `d`
the accumulated distance.  A step either emits the interpolated sample `q`
and continues from `q` against the same target (the Python code inserts `q`
into `points` at position `i` and increments `i`), or consumes the target
accumulating its distance.  Returns (`new_points` minus its initial element,
the walked point list from `prev` on, i.e. the final suffix of the mutated
`points`).  The fuel bounds the number of loop iterations; `resample`
supplies enough. -/
noncomputable def resampleGo (interval : ℝ) :
    ℕ → Pt → List Pt → ℝ → List Pt × List Pt
  | 0, prev, rest, _ => ([], prev :: rest)
  | _ + 1, prev, [], _ => ([], [prev])
  | f + 1, prev, p :: rest2, d =>
    let d1 := ptDist prev p
    if interval ≤ d + d1 then
      let q := lerp prev p ((interval - d) / d1)
      let res := resampleGo interval f q (p :: rest2) 0
      (q :: res.1, prev :: res.2)
    else
      let res := resampleGo interval f p rest2 (d + d1)
      (res.1, prev :: res.2)

/-- The same walk instrumented with the cumulative walked arc length: each
recursive step advances the tag by the distance between the old and the new
head point, so the tag attached to an emitted sample is its arc-length
position along the walked polyline. -/
noncomputable def resampleGoArc (interval : ℝ) :
    ℕ → Pt → List Pt → ℝ → ℝ → List (Pt × ℝ) × List Pt
  | 0, prev, rest, _, _ => ([], prev :: rest)
  | _ + 1, prev, [], _, _ => ([], [prev])
  | f + 1, prev, p :: rest2, d, pos =>
    let d1 := ptDist prev p
    if interval ≤ d + d1 then
      let q := lerp prev p ((interval - d) / d1)
      let res := resampleGoArc interval f q (p :: rest2) 0 (pos + ptDist prev q)
      ((q, pos + ptDist prev q) :: res.1, prev :: res.2)
    else
      let res := resampleGoArc interval f p rest2 (d + d1) (pos + ptDist prev p)
      (res.1, prev :: res.2)

/-- `DollarRecognizer._resample(points, n)` (lines 290-315): under two points
return the input unchanged, otherwise walk the polyline inserting a sample
every `interval = pathLength/(n-1)`, and if only `n-1` points were produced
append the final element of the (mutated) point list.  Returns
(`new_points`, the mutated `points` list). -/
noncomputable def resample (points : List Pt) (n : ℕ) : List Pt × List Pt :=
  match points with
  | [] => ([], [])
  | [p] => ([p], [p])
  | p :: rest =>
    let interval := pathLen p rest / ((n:ℝ) - 1)
    let res := resampleGo interval (points.length + n) p rest 0
    let newPts := p :: res.1
    (if newPts.length = n - 1 then newPts ++ [res.2.getLastD p] else newPts,
      res.2)

lemma resampleGo_fst_eq_arc (interval : ℝ) :
    ∀ (fuel : ℕ) (prev : Pt) (rest : List Pt) (d pos : ℝ),
      (resampleGo interval fuel prev rest d).1 =
        ((resampleGoArc interval fuel prev rest d pos).1.map Prod.fst) ∧
      (resampleGo interval fuel prev rest d).2 =
        (resampleGoArc interval fuel prev rest d pos).2 := by
  intro fuel
  induction fuel with
  | zero => intro prev rest d pos; exact ⟨rfl, rfl⟩
  | succ f ih =>
    intro prev rest d pos
    match rest with
    | [] => exact ⟨rfl, rfl⟩
    | p :: rest2 =>
      simp only [resampleGo, resampleGoArc]
      by_cases h : interval ≤ d + ptDist prev p
      · simp only [h, if_true, ite_true, List.map_cons]
        exact ⟨by rw [(ih _ _ _ _).1], by rw [(ih _ _ _ _).2]⟩
      · simp only [h, if_false, ite_false]
        exact ⟨(ih _ _ _ _).1, by rw [(ih _ _ _ _).2]⟩

lemma getLast?_cons_of_ne {α : Type} (x : α) (l : List α) (h : l ≠ []) :
    (x :: l).getLast? = l.getLast? := by
  match l with
  | [] => exact absurd rfl h
  | b :: t => exact List.getLast?_cons_cons

lemma resampleGoArc_spec (interval : ℝ) (hI : 0 < interval) :
    ∀ (fuel : ℕ) (prev : Pt) (rest : List Pt) (d pos : ℝ) (m : ℕ),
      0 ≤ d → d < interval →
      d + pathLen prev rest = m * interval →
      rest.length + m ≤ fuel →
      (resampleGoArc interval fuel prev rest d pos).1.length = m ∧
      (resampleGoArc interval fuel prev rest d pos).1.map Prod.snd =
        (List.range m).map (fun j : ℕ => pos - d + ((j:ℝ) + 1) * interval) ∧
      (resampleGoArc interval fuel prev rest d pos).2.length =
        rest.length + 1 + m ∧
      (resampleGoArc interval fuel prev rest d pos).2.getLast? =
        (prev :: rest).getLast? ∧
      (m ≠ 0 →
        ((resampleGoArc interval fuel prev rest d pos).1.map
          Prod.fst).getLast? = (prev :: rest).getLast?) := by
  intro fuel
  induction fuel with
  | zero =>
    intro prev rest d pos m hd0 hdI hinv hfuel
    have hrest : rest = [] := by
      cases rest with
      | nil => rfl
      | cons a t => simp [List.length_cons] at hfuel
    have hm : m = 0 := by
      subst hrest
      simpa using hfuel
    subst hrest
    subst hm
    exact ⟨rfl, rfl, rfl, rfl, fun h => absurd rfl h⟩
  | succ f ih =>
    intro prev rest d pos m hd0 hdI hinv hfuel
    cases rest with
    | nil =>
      have hm : m = 0 := by
        by_contra hm
        have h1 : (1:ℝ) ≤ (m:ℝ) := by
          exact_mod_cast Nat.one_le_iff_ne_zero.2 hm
        have hd : d = m * interval := by simpa [pathLen] using hinv
        nlinarith
      subst hm
      exact ⟨rfl, rfl, rfl, rfl, fun h => absurd rfl h⟩
    | cons p rest2 =>
      have hd1 : 0 ≤ ptDist prev p := ptDist_nonneg prev p
      have hpl2 : 0 ≤ pathLen p rest2 := pathLen_nonneg p rest2
      by_cases hbr : interval ≤ d + ptDist prev p
      · -- emit branch
        have hd1pos : 0 < ptDist prev p := by linarith
        have ht0 : 0 ≤ (interval - d) / ptDist prev p := by
          apply div_nonneg (by linarith) (le_of_lt hd1pos)
        have ht1 : (interval - d) / ptDist prev p ≤ 1 := by
          rw [div_le_one hd1pos]
          linarith
        have hq1 : ptDist prev (lerp prev p ((interval - d) / ptDist prev p)) =
            interval - d := by
          rw [ptDist_lerp_left prev p _ ht0,
            div_mul_cancel₀ _ (ne_of_gt hd1pos)]
        have hq2 : ptDist (lerp prev p ((interval - d) / ptDist prev p)) p =
            ptDist prev p - (interval - d) := by
          rw [ptDist_lerp_right prev p _ ht1]
          field_simp
        have hm1 : m ≠ 0 := by
          intro hm
          subst hm
          simp only [Nat.cast_zero, zero_mul] at hinv
          simp only [pathLen] at hinv
          nlinarith
        obtain ⟨k, rfl⟩ : ∃ k, m = k + 1 :=
          ⟨m - 1, (Nat.succ_pred_eq_of_pos (Nat.pos_of_ne_zero hm1)).symm⟩
        have hinv2 : (0:ℝ) +
            pathLen (lerp prev p ((interval - d) / ptDist prev p)) (p :: rest2)
              = k * interval := by
          simp only [pathLen] at hinv ⊢
          rw [hq2]
          push_cast at hinv ⊢
          linarith
        have hfuel2 : (p :: rest2).length + k ≤ f := by
          simp only [List.length_cons] at hfuel ⊢
          omega
        have S := ih (lerp prev p ((interval - d) / ptDist prev p)) (p :: rest2)
          0 (pos + ptDist prev (lerp prev p ((interval - d) / ptDist prev p)))
          k le_rfl hI hinv2 hfuel2
        have hred : resampleGoArc interval (f + 1) prev (p :: rest2) d pos =
            ((lerp prev p ((interval - d) / ptDist prev p),
               pos + ptDist prev (lerp prev p ((interval - d) / ptDist prev p))) ::
               (resampleGoArc interval f
                 (lerp prev p ((interval - d) / ptDist prev p)) (p :: rest2) 0
                 (pos + ptDist prev
                   (lerp prev p ((interval - d) / ptDist prev p)))).1,
             prev :: (resampleGoArc interval f
                 (lerp prev p ((interval - d) / ptDist prev p)) (p :: rest2) 0
                 (pos + ptDist prev
                   (lerp prev p ((interval - d) / ptDist prev p)))).2) := by
          simp only [resampleGoArc, hbr, if_true, ite_true]
        rw [hred]
        obtain ⟨S1, S2, S3, S4, S5⟩ := S
        have hmutne : (resampleGoArc interval f
            (lerp prev p ((interval - d) / ptDist prev p)) (p :: rest2) 0
            (pos + ptDist prev
              (lerp prev p ((interval - d) / ptDist prev p)))).2 ≠ [] := by
          intro hnil
          rw [hnil] at S3
          simp only [List.length_nil, List.length_cons] at S3
          omega
        refine ⟨?_, ?_, ?_, ?_, ?_⟩
        · simp [S1]
        · simp only [List.map_cons, S2]
          rw [List.range_succ_eq_map, List.map_cons, List.map_map]
          congr 1
          · rw [hq1]
            push_cast
            ring
          · apply List.map_congr_left
            intro a _
            simp only [Function.comp_apply, hq1]
            push_cast
            ring
        · simp only [List.length_cons, S3, List.length_cons]
          omega
        · rw [getLast?_cons_of_ne _ _ hmutne, S4, List.getLast?_cons_cons]
          rw [List.getLast?_cons_cons]
        · intro _
          simp only [List.map_cons]
          by_cases hk : k = 0
          · subst hk
            have hemp : (resampleGoArc interval f
                (lerp prev p ((interval - d) / ptDist prev p)) (p :: rest2) 0
                (pos + ptDist prev
                  (lerp prev p ((interval - d) / ptDist prev p)))).1 = [] := by
              cases hl : (resampleGoArc interval f
                  (lerp prev p ((interval - d) / ptDist prev p)) (p :: rest2) 0
                  (pos + ptDist prev
                    (lerp prev p ((interval - d) / ptDist prev p)))).1 with
              | nil => rfl
              | cons a t =>
                rw [hl] at S1
                simp at S1
            rw [hemp]
            have hzero : pathLen
                (lerp prev p ((interval - d) / ptDist prev p)) (p :: rest2) = 0 := by
              simpa using hinv2
            have hlast := pathLen_eq_zero_getLast _ _ hzero
            rw [List.getLast?_cons_cons] at hlast
            simp only [List.map_nil]
            rw [List.getLast?_cons_cons, hlast]
            simp
          · have hne : ((resampleGoArc interval f
                (lerp prev p ((interval - d) / ptDist prev p)) (p :: rest2) 0
                (pos + ptDist prev
                  (lerp prev p ((interval - d) / ptDist prev p)))).1.map
                  Prod.fst) ≠ [] := by
              intro hnil
              have := congrArg List.length hnil
              simp [S1] at this
              exact hk this
            rw [getLast?_cons_of_ne _ _ hne, S5 hk, List.getLast?_cons_cons,
              List.getLast?_cons_cons]
      · -- consume branch
        have hdI2 : d + ptDist prev p < interval := lt_of_not_le hbr
        have hinv2 : d + ptDist prev p + pathLen p rest2 = m * interval := by
          simp only [pathLen] at hinv
          linarith
        have hfuel2 : rest2.length + m ≤ f := by
          simp only [List.length_cons] at hfuel
          omega
        have S := ih p rest2 (d + ptDist prev p) (pos + ptDist prev p) m
          (by linarith) hdI2 hinv2 hfuel2
        have hred : resampleGoArc interval (f + 1) prev (p :: rest2) d pos =
            ((resampleGoArc interval f p rest2 (d + ptDist prev p)
               (pos + ptDist prev p)).1,
             prev :: (resampleGoArc interval f p rest2 (d + ptDist prev p)
               (pos + ptDist prev p)).2) := by
          simp only [resampleGoArc, hbr, if_false, ite_false]
        rw [hred]
        obtain ⟨S1, S2, S3, S4, S5⟩ := S
        have hmutne : (resampleGoArc interval f p rest2 (d + ptDist prev p)
            (pos + ptDist prev p)).2 ≠ [] := by
          intro hnil
          rw [hnil] at S3
          simp only [List.length_nil, List.length_cons] at S3
          omega
        refine ⟨S1, ?_, ?_, ?_, ?_⟩
        · rw [S2]
          apply List.map_congr_left
          intro a _
          ring
        · simp only [S3, List.length_cons]
          omega
        · rw [getLast?_cons_of_ne _ _ hmutne, S4]
          by_cases h2 : rest2 = []
          · subst h2
            simp only [List.getLast?_cons_cons]
          · rw [getLast?_cons_of_ne p rest2 h2,
              List.getLast?_cons_cons, getLast?_cons_of_ne p rest2 h2]
        · intro hm
          rw [S5 hm]
          by_cases h2 : rest2 = []
          · subst h2
            -- m ≠ 0 but pathLen p [] = 0 and d + dist < interval forces m = 0
            exfalso
            have : d + ptDist prev p = m * interval := by
              simpa [pathLen] using hinv2
            have h1 : (1:ℝ) ≤ (m:ℝ) := by
              exact_mod_cast Nat.one_le_iff_ne_zero.2 hm
            nlinarith
          · rw [getLast?_cons_of_ne p rest2 h2,
              List.getLast?_cons_cons, getLast?_cons_of_ne p rest2 h2]

lemma resample_cons_cons (p r1 : Pt) (rest2 : List Pt) (n : ℕ) :
    resample (p :: r1 :: rest2) n =
      (let interval := pathLen p (r1 :: rest2) / ((n:ℝ) - 1)
       let res := resampleGo interval ((p :: r1 :: rest2).length + n) p
         (r1 :: rest2) 0
       let newPts := p :: res.1
       (if newPts.length = n - 1 then newPts ++ [res.2.getLastD p] else newPts,
        res.2)) := rfl

/-- C6. For every non-degenerate stroke (head vertex `p`, at least one more
vertex, positive total length), resampling with `K = 64` returns exactly 64
points: the first vertex followed by the 63 samples of the walk; the walk
tags those samples with arc-length positions `interval, 2*interval, ...,
63*interval` where `interval = totalLength/(K-1)` (equal arc-length spacing
along the walked polyline, the head vertex sitting at position 0); and the
last returned point is the stroke's terminal vertex. -/
theorem C6_resample_64 (p : Pt) (rest : List Pt) (hne : rest ≠ [])
    (hL : 0 < pathLen p rest) :
    (resample (p :: rest) 64).1 =
      p :: ((resampleGoArc (pathLen p rest / 63) ((p :: rest).length + 64) p
        rest 0 0).1.map Prod.fst) ∧
    (resample (p :: rest) 64).1.length = 64 ∧
    (resampleGoArc (pathLen p rest / 63) ((p :: rest).length + 64) p rest 0
        0).1.map Prod.snd =
      (List.range 63).map (fun j : ℕ => ((j:ℝ) + 1) * (pathLen p rest / 63)) ∧
    (resample (p :: rest) 64).1.getLast? = (p :: rest).getLast? := by
  have hI : 0 < pathLen p rest / 63 := by positivity
  have hinv : (0:ℝ) + pathLen p rest = (63:ℕ) * (pathLen p rest / 63) := by
    push_cast
    field_simp
  have hfuel : rest.length + 63 ≤ (p :: rest).length + 64 := by
    simp only [List.length_cons]
    omega
  obtain ⟨S1, S2, S3, S4, S5⟩ :=
    resampleGoArc_spec (pathLen p rest / 63) hI ((p :: rest).length + 64) p
      rest 0 0 63 le_rfl hI hinv hfuel
  obtain ⟨hc1, _⟩ :=
    resampleGo_fst_eq_arc (pathLen p rest / 63) ((p :: rest).length + 64) p
      rest 0 0
  cases rest with
  | nil => exact absurd rfl hne
  | cons r1 rest2 =>
    have hcast : ((64:ℕ):ℝ) - 1 = (63:ℝ) := by norm_num
    have hres1 : (resample (p :: r1 :: rest2) 64).1 =
        p :: (resampleGo (pathLen p (r1 :: rest2) / 63)
          ((p :: r1 :: rest2).length + 64) p (r1 :: rest2) 0).1 := by
      rw [resample_cons_cons]
      simp only [hcast]
      have hlen : (p :: (resampleGo (pathLen p (r1 :: rest2) / 63)
          ((p :: r1 :: rest2).length + 64) p (r1 :: rest2) 0).1).length =
            64 := by
        rw [List.length_cons, hc1, List.length_map, S1]
      rw [if_neg (by rw [hlen]; norm_num)]
    have hfst : (resample (p :: r1 :: rest2) 64).1 =
        p :: ((resampleGoArc (pathLen p (r1 :: rest2) / 63)
          ((p :: r1 :: rest2).length + 64) p (r1 :: rest2) 0 0).1.map
            Prod.fst) := by
      rw [hres1, hc1]
    refine ⟨hfst, ?_, ?_, ?_⟩
    · rw [hfst, List.length_cons, List.length_map, S1]
    · rw [S2]
      apply List.map_congr_left
      intro a _
      ring
    · rw [hfst]
      have hemitne : ((resampleGoArc (pathLen p (r1 :: rest2) / 63)
          ((p :: r1 :: rest2).length + 64) p (r1 :: rest2) 0 0).1.map
            Prod.fst) ≠ [] := by
        intro hnil
        have hlen2 := congrArg List.length hnil
        rw [List.length_map, S1] at hlen2
        simp at hlen2
      rw [getLast?_cons_of_ne _ _ hemitne]
      exact S5 (by norm_num)

/-- C6 witness: the resampling facts applied to the concrete two-vertex
stroke from (0,0) to (1,0), whose length 1 is positive. -/
theorem C6_resample_64_witness :
    (resample [⟨0, 0⟩, ⟨1, 0⟩] 64).1.length = 64 ∧
    (resample [⟨0, 0⟩, ⟨1, 0⟩] 64).1.getLast? =
      ([⟨0, 0⟩, ⟨1, 0⟩] : List Pt).getLast? := by
  have hL : 0 < pathLen ⟨0, 0⟩ [⟨1, 0⟩] := by
    simp only [pathLen, ptDist]
    norm_num
  have h := C6_resample_64 ⟨0, 0⟩ [⟨1, 0⟩] (by simp) hL
  exact ⟨h.2.1, h.2.2.2⟩

/-! ## Templates and recognition (lines 277-363), claim C7 -/

/-- Left-swipe template points before resampling (line 281):
`[Point(1.0 - i/10.0, 0.5) for i in range(11)]`. -/
noncomputable def leftPoints : List Pt :=
  (List.range 11).map (fun i : ℕ => ⟨1 - (i:ℝ)/10, 1/2⟩)

/-- Right-swipe template points before resampling (line 285):
`[Point(i/10.0, 0.5) for i in range(11)]`. -/
noncomputable def rightPoints : List Pt :=
  (List.range 11).map (fun i : ℕ => ⟨(i:ℝ)/10, 1/2⟩)

/-- The template table of `_create_templates` (lines 277-288), each template
resampled once at construction, in dict insertion order. -/
noncomputable def templatesOf : List (String × List Pt) :=
  [("left", (resample leftPoints 64).1), ("right", (resample rightPoints 64).1)]

/-- `_path_distance` (lines 326-332): infinite on a length mismatch,
otherwise the mean pointwise distance. -/
noncomputable def pathDistance (l1 l2 : List Pt) : WithTop ℝ :=
  if l1.length ≠ l2.length then ⊤
  else (((List.zipWith ptDist l1 l2).sum / l1.length : ℝ) : WithTop ℝ)

/-- The best-template loop of `recognize` (lines 342-351): start from
`best_score = inf`, `best_gesture = None`, replacing on strictly smaller
scores. -/
noncomputable def bestMatch (scores : List (String × WithTop ℝ)) :
    Option String × WithTop ℝ :=
  scores.foldl
    (fun acc s => if s.2 < acc.2 then (some s.1, s.2) else acc) (none, ⊤)

/-- Scores of the captured stroke against all templates (lines 346-348). -/
noncomputable def scoresOf (points : List Pt) : List (String × WithTop ℝ) :=
  templatesOf.map (fun nt => (nt.1, pathDistance (resample points 64).1 nt.2))

/-- `DollarRecognizer.recognize` (lines 334-363) as a function of the stroke
buffer `self.points`: returns the recognized label (`none` on no match) and
the new buffer contents.  `_resample` mutates `self.points` in place by
inserting the interpolated samples; on a match the buffer is then reset to
`[]`, otherwise it is left holding the mutated list. -/
noncomputable def recognize (points : List Pt) : Option String × List Pt :=
  if points.length < 5 then (none, points)
  else
    let res := resample points 64
    let best := bestMatch (templatesOf.map
      (fun nt => (nt.1, pathDistance res.1 nt.2)))
    if best.2 < ((1/2 : ℝ) : WithTop ℝ) then (best.1, []) else (none, res.2)

lemma recognize_eq (points : List Pt) (h5 : ¬ points.length < 5) :
    recognize points =
      (if (bestMatch (scoresOf points)).2 < ((1/2 : ℝ) : WithTop ℝ) then
        ((bestMatch (scoresOf points)).1, [])
      else (none, (resample points 64).2)) := by
  unfold recognize scoresOf
  rw [if_neg h5]

lemma resample_64_basic (p : Pt) (rest : List Pt) (hne : rest ≠ [])
    (hL : 0 < pathLen p rest) :
    (resample (p :: rest) 64).1 =
      p :: (resampleGo (pathLen p rest / 63) ((p :: rest).length + 64) p
        rest 0).1 ∧
    (resample (p :: rest) 64).1.length = 64 ∧
    (resample (p :: rest) 64).2.length = (p :: rest).length + 63 := by
  have hI : 0 < pathLen p rest / 63 := by positivity
  have hinv : (0:ℝ) + pathLen p rest = (63:ℕ) * (pathLen p rest / 63) := by
    push_cast
    field_simp
  have hfuel : rest.length + 63 ≤ (p :: rest).length + 64 := by
    simp only [List.length_cons]
    omega
  obtain ⟨S1, S2, S3, S4, S5⟩ :=
    resampleGoArc_spec (pathLen p rest / 63) hI ((p :: rest).length + 64) p
      rest 0 0 63 le_rfl hI hinv hfuel
  obtain ⟨hc1, hc2⟩ :=
    resampleGo_fst_eq_arc (pathLen p rest / 63) ((p :: rest).length + 64) p
      rest 0 0
  cases rest with
  | nil => exact absurd rfl hne
  | cons r1 rest2 =>
    have hcast : ((64:ℕ):ℝ) - 1 = (63:ℝ) := by norm_num
    have hres1 : (resample (p :: r1 :: rest2) 64).1 =
        p :: (resampleGo (pathLen p (r1 :: rest2) / 63)
          ((p :: r1 :: rest2).length + 64) p (r1 :: rest2) 0).1 := by
      rw [resample_cons_cons]
      simp only [hcast]
      have hlen : (p :: (resampleGo (pathLen p (r1 :: rest2) / 63)
          ((p :: r1 :: rest2).length + 64) p (r1 :: rest2) 0).1).length =
            64 := by
        rw [List.length_cons, hc1, List.length_map, S1]
      rw [if_neg (by rw [hlen]; norm_num)]
    refine ⟨hres1, ?_, ?_⟩
    · rw [hres1, List.length_cons, hc1, List.length_map, S1]
    · have hres2 : (resample (p :: r1 :: rest2) 64).2 =
          (resampleGo (pathLen p (r1 :: rest2) / 63)
            ((p :: r1 :: rest2).length + 64) p (r1 :: rest2) 0).2 := by
        rw [resample_cons_cons]
        simp only [hcast]
      rw [hres2, hc2, S3]
      simp only [List.length_cons]

lemma resampleGo_fst_pred (interval : ℝ) (hI : 0 < interval) (P : Pt → Prop)
    (hconv : ∀ a b t, 0 ≤ t → t ≤ 1 → P a → P b → P (lerp a b t)) :
    ∀ (fuel : ℕ) (prev : Pt) (rest : List Pt) (d : ℝ),
      0 ≤ d → d < interval → P prev → (∀ q ∈ rest, P q) →
      ∀ q ∈ (resampleGo interval fuel prev rest d).1, P q := by
  intro fuel
  induction fuel with
  | zero =>
    intro prev rest d _ _ _ _ q hq
    simp [resampleGo] at hq
  | succ f ih =>
    intro prev rest d hd0 hdI hP hPr q hq
    cases rest with
    | nil => simp [resampleGo] at hq
    | cons p rest2 =>
      have hPp : P p := hPr p (List.mem_cons_self _ _)
      by_cases hbr : interval ≤ d + ptDist prev p
      · have hd1pos : 0 < ptDist prev p := by
          have := ptDist_nonneg prev p
          linarith
        have ht0 : 0 ≤ (interval - d) / ptDist prev p :=
          div_nonneg (by linarith) (le_of_lt hd1pos)
        have ht1 : (interval - d) / ptDist prev p ≤ 1 := by
          rw [div_le_one hd1pos]
          linarith
        have hPq : P (lerp prev p ((interval - d) / ptDist prev p)) :=
          hconv _ _ _ ht0 ht1 hP hPp
        have hred : (resampleGo interval (f + 1) prev (p :: rest2) d).1 =
            lerp prev p ((interval - d) / ptDist prev p) ::
              (resampleGo interval f
                (lerp prev p ((interval - d) / ptDist prev p))
                (p :: rest2) 0).1 := by
          simp only [resampleGo, hbr, if_true, ite_true]
        rw [hred] at hq
        rcases List.mem_cons.1 hq with h | h
        · rw [h]
          exact hPq
        · refine ih _ _ _ le_rfl hI hPq ?_ q h
          intro q' hq'
          rcases List.mem_cons.1 hq' with h' | h'
          · rw [h']
            exact hPp
          · exact hPr q' (List.mem_cons_of_mem _ h')
      · have hred : (resampleGo interval (f + 1) prev (p :: rest2) d).1 =
            (resampleGo interval f p rest2 (d + ptDist prev p)).1 := by
          simp only [resampleGo, hbr, if_false, ite_false]
        rw [hred] at hq
        exact ih _ _ _ (by have := ptDist_nonneg prev p; linarith)
          (lt_of_not_le hbr) hPp
          (fun q' hq' => hPr q' (List.mem_cons_of_mem _ hq')) q hq

lemma resample_64_pred (p : Pt) (rest : List Pt) (hne : rest ≠ [])
    (hL : 0 < pathLen p rest) (P : Pt → Prop)
    (hconv : ∀ a b t, 0 ≤ t → t ≤ 1 → P a → P b → P (lerp a b t))
    (hP : P p) (hPr : ∀ q ∈ rest, P q) :
    ∀ q ∈ (resample (p :: rest) 64).1, P q := by
  have hI : 0 < pathLen p rest / 63 := by positivity
  obtain ⟨h1, _, _⟩ := resample_64_basic p rest hne hL
  rw [h1]
  intro q hq
  rcases List.mem_cons.1 hq with h | h
  · rw [h]
    exact hP
  · exact resampleGo_fst_pred (pathLen p rest / 63) hI P hconv _ p rest 0
      le_rfl hI hP hPr q h

lemma ptDist_ge_dx (a b : Pt) : a.x - b.x ≤ ptDist a b := by
  refine le_trans (le_abs_self _) ?_
  rw [← Real.sqrt_sq_eq_abs]
  unfold ptDist
  exact Real.sqrt_le_sqrt (by nlinarith [sq_nonneg (a.y - b.y)])

lemma sum_zipWith_ge :
    ∀ (l1 l2 : List Pt), l1.length = l2.length →
      (∀ a ∈ l1, 2 ≤ a.x) → (∀ b ∈ l2, b.x ≤ 1) →
      (l1.length : ℝ) ≤ (List.zipWith ptDist l1 l2).sum := by
  intro l1
  induction l1 with
  | nil => intro l2 _ _ _; simp
  | cons a t ih =>
    intro l2 hlen ha hb
    cases l2 with
    | nil => simp at hlen
    | cons b t2 =>
      simp only [List.zipWith_cons_cons, List.sum_cons, List.length_cons]
      have h1 : (1:ℝ) ≤ ptDist a b := by
        have hax : 2 ≤ a.x := ha a (List.mem_cons_self _ _)
        have hbx : b.x ≤ 1 := hb b (List.mem_cons_self _ _)
        have := ptDist_ge_dx a b
        linarith
      have h2 : (t.length : ℝ) ≤ (List.zipWith ptDist t t2).sum := by
        refine ih t2 (by simpa using hlen) ?_ ?_
        · intro x hx
          exact ha x (List.mem_cons_of_mem _ hx)
        · intro x hx
          exact hb x (List.mem_cons_of_mem _ hx)
      push_cast
      linarith

lemma pathDistance_ge_one (l1 l2 : List Pt) (h1 : l1.length = 64)
    (h2 : l2.length = 64) (ha : ∀ a ∈ l1, 2 ≤ a.x) (hb : ∀ b ∈ l2, b.x ≤ 1) :
    ((1:ℝ) : WithTop ℝ) ≤ pathDistance l1 l2 := by
  unfold pathDistance
  rw [if_neg (by rw [h1, h2]; exact fun h => h rfl)]
  rw [WithTop.coe_le_coe]
  have hsum := sum_zipWith_ge l1 l2 (by rw [h1, h2]) ha hb
  rw [h1] at hsum ⊢
  push_cast at hsum ⊢
  rw [le_div_iff (by norm_num : (0:ℝ) < 64)]
  linarith

lemma bestMatch_snd_ge (c : WithTop ℝ) :
    ∀ (scores : List (String × WithTop ℝ))
      (acc : Option String × WithTop ℝ),
      c ≤ acc.2 → (∀ s ∈ scores, c ≤ s.2) →
      c ≤ (scores.foldl
        (fun acc s => if s.2 < acc.2 then (some s.1, s.2) else acc) acc).2 := by
  intro scores
  induction scores with
  | nil => intro acc hacc _; exact hacc
  | cons s t ih =>
    intro acc hacc hsc
    simp only [List.foldl_cons]
    by_cases h : s.2 < acc.2
    · rw [if_pos h]
      exact ih _ (hsc s (List.mem_cons_self _ _))
        (fun x hx => hsc x (List.mem_cons_of_mem _ hx))
    · rw [if_neg h]
      exact ih _ hacc (fun x hx => hsc x (List.mem_cons_of_mem _ hx))

lemma leftPoints_eq : leftPoints =
    (⟨1, 1/2⟩ : Pt) :: [⟨9/10, 1/2⟩, ⟨8/10, 1/2⟩, ⟨7/10, 1/2⟩, ⟨6/10, 1/2⟩,
      ⟨5/10, 1/2⟩, ⟨4/10, 1/2⟩, ⟨3/10, 1/2⟩, ⟨2/10, 1/2⟩, ⟨1/10, 1/2⟩,
      ⟨0, 1/2⟩] := by
  simp only [leftPoints, List.range_succ, List.range_zero, List.map_append,
    List.map_cons, List.map_nil, List.nil_append, List.cons_append,
    Pt.mk.injEq]
  norm_num

lemma rightPoints_eq : rightPoints =
    (⟨0, 1/2⟩ : Pt) :: [⟨1/10, 1/2⟩, ⟨2/10, 1/2⟩, ⟨3/10, 1/2⟩, ⟨4/10, 1/2⟩,
      ⟨5/10, 1/2⟩, ⟨6/10, 1/2⟩, ⟨7/10, 1/2⟩, ⟨8/10, 1/2⟩, ⟨9/10, 1/2⟩,
      ⟨1, 1/2⟩] := by
  simp only [rightPoints, List.range_succ, List.range_zero, List.map_append,
    List.map_cons, List.map_nil, List.nil_append, List.cons_append,
    Pt.mk.injEq]
  norm_num

lemma xle_convex :
    ∀ (a b : Pt) (t : ℝ), 0 ≤ t → t ≤ 1 → a.x ≤ 1 → b.x ≤ 1 →
      (lerp a b t).x ≤ 1 := by
  intro a b t ht0 ht1 ha hb
  simp only [lerp]
  nlinarith

lemma xge_convex :
    ∀ (a b : Pt) (t : ℝ), 0 ≤ t → t ≤ 1 → 2 ≤ a.x → 2 ≤ b.x →
      2 ≤ (lerp a b t).x := by
  intro a b t ht0 ht1 ha hb
  simp only [lerp]
  nlinarith

lemma leftTemplate_facts :
    (resample leftPoints 64).1.length = 64 ∧
    ∀ q ∈ (resample leftPoints 64).1, q.x ≤ 1 := by
  rw [leftPoints_eq]
  have hd : 0 < ptDist ⟨1, 1/2⟩ ⟨9/10, 1/2⟩ := by
    unfold ptDist
    apply Real.sqrt_pos.2
    norm_num
  have hL : 0 < pathLen (⟨1, 1/2⟩ : Pt) [⟨9/10, 1/2⟩, ⟨8/10, 1/2⟩,
      ⟨7/10, 1/2⟩, ⟨6/10, 1/2⟩, ⟨5/10, 1/2⟩, ⟨4/10, 1/2⟩, ⟨3/10, 1/2⟩,
      ⟨2/10, 1/2⟩, ⟨1/10, 1/2⟩, ⟨0, 1/2⟩] := by
    simp only [pathLen]
    have := pathLen_nonneg (⟨9/10, 1/2⟩ : Pt) [⟨8/10, 1/2⟩, ⟨7/10, 1/2⟩,
      ⟨6/10, 1/2⟩, ⟨5/10, 1/2⟩, ⟨4/10, 1/2⟩, ⟨3/10, 1/2⟩, ⟨2/10, 1/2⟩,
      ⟨1/10, 1/2⟩, ⟨0, 1/2⟩]
    simp only [pathLen] at this
    have h2 := ptDist_nonneg (⟨9/10, 1/2⟩ : Pt) ⟨8/10, 1/2⟩
    linarith [hd]
  refine ⟨(resample_64_basic _ _ (by simp) hL).2.1, ?_⟩
  refine resample_64_pred _ _ (by simp) hL _ xle_convex (by norm_num) ?_
  intro q hq
  fin_cases hq <;> norm_num

lemma rightTemplate_facts :
    (resample rightPoints 64).1.length = 64 ∧
    ∀ q ∈ (resample rightPoints 64).1, q.x ≤ 1 := by
  rw [rightPoints_eq]
  have hd : 0 < ptDist ⟨0, 1/2⟩ ⟨1/10, 1/2⟩ := by
    unfold ptDist
    apply Real.sqrt_pos.2
    norm_num
  have hL : 0 < pathLen (⟨0, 1/2⟩ : Pt) [⟨1/10, 1/2⟩, ⟨2/10, 1/2⟩,
      ⟨3/10, 1/2⟩, ⟨4/10, 1/2⟩, ⟨5/10, 1/2⟩, ⟨6/10, 1/2⟩, ⟨7/10, 1/2⟩,
      ⟨8/10, 1/2⟩, ⟨9/10, 1/2⟩, ⟨1, 1/2⟩] := by
    simp only [pathLen]
    have := pathLen_nonneg (⟨1/10, 1/2⟩ : Pt) [⟨2/10, 1/2⟩, ⟨3/10, 1/2⟩,
      ⟨4/10, 1/2⟩, ⟨5/10, 1/2⟩, ⟨6/10, 1/2⟩, ⟨7/10, 1/2⟩, ⟨8/10, 1/2⟩,
      ⟨9/10, 1/2⟩, ⟨1, 1/2⟩]
    simp only [pathLen] at this
    linarith [hd]
  refine ⟨(resample_64_basic _ _ (by simp) hL).2.1, ?_⟩
  refine resample_64_pred _ _ (by simp) hL _ xle_convex (by norm_num) ?_
  intro q hq
  fin_cases hq <;> norm_num

lemma strokeS_length : 0 < pathLen (⟨2, 1/2⟩ : Pt)
    [⟨9/4, 1/2⟩, ⟨5/2, 1/2⟩, ⟨11/4, 1/2⟩, ⟨3, 1/2⟩] := by
  have hd : 0 < ptDist ⟨2, 1/2⟩ ⟨9/4, 1/2⟩ := by
    unfold ptDist
    apply Real.sqrt_pos.2
    norm_num
  simp only [pathLen]
  have := pathLen_nonneg (⟨9/4, 1/2⟩ : Pt) [⟨5/2, 1/2⟩, ⟨11/4, 1/2⟩, ⟨3, 1/2⟩]
  simp only [pathLen] at this
  linarith [hd]

lemma strokeS_scores_ge :
    ∀ s ∈ scoresOf [⟨2, 1/2⟩, ⟨9/4, 1/2⟩, ⟨5/2, 1/2⟩, ⟨11/4, 1/2⟩, ⟨3, 1/2⟩],
      ((1:ℝ) : WithTop ℝ) ≤ s.2 := by
  have hlen64 : (resample [(⟨2, 1/2⟩ : Pt), ⟨9/4, 1/2⟩, ⟨5/2, 1/2⟩,
      ⟨11/4, 1/2⟩, ⟨3, 1/2⟩] 64).1.length = 64 :=
    (resample_64_basic _ _ (by simp) strokeS_length).2.1
  have hge2 : ∀ q ∈ (resample [(⟨2, 1/2⟩ : Pt), ⟨9/4, 1/2⟩, ⟨5/2, 1/2⟩,
      ⟨11/4, 1/2⟩, ⟨3, 1/2⟩] 64).1, 2 ≤ q.x := by
    refine resample_64_pred _ _ (by simp) strokeS_length _ xge_convex
      (by norm_num) ?_
    intro q hq
    fin_cases hq <;> norm_num
  intro s hs
  simp only [scoresOf, templatesOf, List.map_cons, List.map_nil,
    List.mem_cons, List.not_mem_nil, or_false, List.mem_singleton] at hs
  rcases hs with hs | hs <;> rw [hs]
  · exact pathDistance_ge_one _ _ hlen64 leftTemplate_facts.1 hge2
      leftTemplate_facts.2
  · exact pathDistance_ge_one _ _ hlen64 rightTemplate_facts.1 hge2
      rightTemplate_facts.2

lemma strokeS_no_match :
    ¬ (bestMatch (scoresOf [⟨2, 1/2⟩, ⟨9/4, 1/2⟩, ⟨5/2, 1/2⟩, ⟨11/4, 1/2⟩,
        ⟨3, 1/2⟩])).2 < ((1/2 : ℝ) : WithTop ℝ) := by
  have hbest : ((1:ℝ) : WithTop ℝ) ≤
      (bestMatch (scoresOf [⟨2, 1/2⟩, ⟨9/4, 1/2⟩, ⟨5/2, 1/2⟩, ⟨11/4, 1/2⟩,
        ⟨3, 1/2⟩])).2 :=
    bestMatch_snd_ge _ _ (none, ⊤) le_top strokeS_scores_ge
  refine not_lt.2 (le_trans ?_ hbest)
  rw [WithTop.coe_le_coe]
  norm_num

/-- C7 counterexample: a five-point horizontal stroke far from both templates
is rejected (no match), yet `recognize` does not leave the captured stroke
buffer unchanged: `_resample` has mutated it in place (63 interpolated points
were inserted), so the buffer returned differs from the captured stroke. -/
theorem C7_counterexample :
    (recognize [⟨2, 1/2⟩, ⟨9/4, 1/2⟩, ⟨5/2, 1/2⟩, ⟨11/4, 1/2⟩, ⟨3, 1/2⟩]).1 =
      none ∧
    (recognize [⟨2, 1/2⟩, ⟨9/4, 1/2⟩, ⟨5/2, 1/2⟩, ⟨11/4, 1/2⟩, ⟨3, 1/2⟩]).2 ≠
      [⟨2, 1/2⟩, ⟨9/4, 1/2⟩, ⟨5/2, 1/2⟩, ⟨11/4, 1/2⟩, ⟨3, 1/2⟩] := by
  have h5 : ¬ ([(⟨2, 1/2⟩ : Pt), ⟨9/4, 1/2⟩, ⟨5/2, 1/2⟩, ⟨11/4, 1/2⟩,
      ⟨3, 1/2⟩].length < 5) := by simp
  have hrec := recognize_eq _ h5
  rw [if_neg strokeS_no_match] at hrec
  rw [hrec]
  refine ⟨rfl, ?_⟩
  intro h
  have hlen := congrArg List.length h
  have hmut : (resample [(⟨2, 1/2⟩ : Pt), ⟨9/4, 1/2⟩, ⟨5/2, 1/2⟩,
      ⟨11/4, 1/2⟩, ⟨3, 1/2⟩] 64).2.length =
        [(⟨2, 1/2⟩ : Pt), ⟨9/4, 1/2⟩, ⟨5/2, 1/2⟩, ⟨11/4, 1/2⟩,
          ⟨3, 1/2⟩].length + 63 :=
    (resample_64_basic _ _ (by simp) strokeS_length).2.2
  rw [hmut] at hlen
  simp at hlen

/-- C7 (amended). For a captured stroke of at least 5 points, if the running
minimum of the template scores is strictly below the acceptance threshold 0.5
then `recognize` returns that minimum-distance template's label and clears
the stroke buffer; otherwise it returns no match and does not clear the
buffer — but the buffer is not left unchanged: it holds the list mutated in
place by resampling, which for a stroke of positive length has grown by 63
inserted interpolation points.  Strokes of fewer than 5 points are rejected
with the buffer untouched. -/
theorem C7_recognize_buffer :
    (∀ points : List Pt, ¬ points.length < 5 →
      ((bestMatch (scoresOf points)).2 < ((1/2 : ℝ) : WithTop ℝ) →
        recognize points = ((bestMatch (scoresOf points)).1, [])) ∧
      (¬ (bestMatch (scoresOf points)).2 < ((1/2 : ℝ) : WithTop ℝ) →
        recognize points = (none, (resample points 64).2))) ∧
    (∀ (p : Pt) (rest : List Pt), rest ≠ [] → 0 < pathLen p rest →
      (resample (p :: rest) 64).2.length = (p :: rest).length + 63) ∧
    (∀ points : List Pt, points.length < 5 →
      recognize points = (none, points)) := by
  refine ⟨?_, ?_, ?_⟩
  · intro pts h5
    constructor <;> intro h <;> rw [recognize_eq pts h5]
    · rw [if_pos h]
    · rw [if_neg h]
  · intro p rest hne hL
    exact (resample_64_basic p rest hne hL).2.2
  · intro pts h5
    unfold recognize
    rw [if_pos h5]

/-- C7 witness: the amended behavior applied to the concrete rejected
five-point stroke and to the two-vertex segment of the C6 witness. -/
theorem C7_recognize_buffer_witness :
    recognize [⟨2, 1/2⟩, ⟨9/4, 1/2⟩, ⟨5/2, 1/2⟩, ⟨11/4, 1/2⟩, ⟨3, 1/2⟩] =
      (none, (resample [⟨2, 1/2⟩, ⟨9/4, 1/2⟩, ⟨5/2, 1/2⟩, ⟨11/4, 1/2⟩,
        ⟨3, 1/2⟩] 64).2) ∧
    (resample [(⟨0, 0⟩ : Pt), ⟨1, 0⟩] 64).2.length =
      ([(⟨0, 0⟩ : Pt), ⟨1, 0⟩]).length + 63 ∧
    recognize [(⟨0, 0⟩ : Pt)] = (none, [(⟨0, 0⟩ : Pt)]) := by
  refine ⟨?_, ?_, ?_⟩
  · exact (C7_recognize_buffer.1 _ (by simp)).2 strokeS_no_match
  · refine C7_recognize_buffer.2.1 ⟨0, 0⟩ [⟨1, 0⟩] (by simp) ?_
    simp only [pathLen, ptDist]
    norm_num
  · exact C7_recognize_buffer.2.2 [⟨0, 0⟩] (by simp)
